import Mathlib

/-!
Verification of the HTML-translation / path-renaming tool
(`translate_html_files.py`, `rewrite_links.py`, `rename_files.py`).

Strings are modelled as `List Char`.  Python's regular-expression
substitutions used by the code (`\s+`, `\s*-\s*`, character classes of
bullet/dash separators) are embedded as recursive functions on character
lists; Python `\s` is modelled on the ASCII whitespace characters and
`str.lower`/`str.casefold` on ASCII letters, which is faithful for the
data the tool processes.
-/

namespace Q42761025

abbrev Str := List Char

/-- The whitespace class matched by `\s` / stripped by `str.strip()`. -/
def isPyWs (c : Char) : Bool :=
  c = ' ' || c = '\t' || c = '\n' || c = '\r' || c = '\x0b' || c = '\x0c'

/-- The character class `[•–—−]` of `_normalize_separators` (bullet,
en dash, em dash, minus — without the ASCII hyphen). -/
def isBulletDash (c : Char) : Bool :=
  c = '•' || c = '–' || c = '—' || c = '−'

/-- The character class `[•\-–—−]` used in the lookup variations. -/
def isSepChar (c : Char) : Bool :=
  c = '•' || c = '-' || c = '–' || c = '—' || c = '−'

/-- ASCII lowering, modelling Python `str.lower()` / `str.casefold()`. -/
def pyLowerChar (c : Char) : Char :=
  if 'A' ≤ c ∧ c ≤ 'Z' then Char.ofNat (c.toNat + 32) else c

def pyLower (s : Str) : Str := s.map pyLowerChar

/-- `re.sub(r'\s+', ' ', text)` as a character automaton; the flag records
whether we are inside a whitespace run whose single space was already
emitted. -/
def collapseWsAux : Bool → Str → Str
  | _, [] => []
  | afterWs, c :: rest =>
    if isPyWs c then
      if afterWs then collapseWsAux true rest
      else ' ' :: collapseWsAux true rest
    else c :: collapseWsAux false rest

/-- `re.sub(r'\s+', ' ', text)`: collapse each whitespace run to one space. -/
def collapseWs (s : Str) : Str := collapseWsAux false s

/-- `str.strip()` on the left. -/
def stripL (s : Str) : Str := s.dropWhile isPyWs

/-- `str.strip()` on the right. -/
def stripR (s : Str) : Str := (s.reverse.dropWhile isPyWs).reverse

/-- Python `str.strip()`. -/
def pyStrip (s : Str) : Str := stripR (stripL s)

/-- `TranslationReplacer._normalize_text`: collapse whitespace, then strip. -/
def normalize_text (s : Str) : Str := pyStrip (collapseWs s)

/-- `re.sub(r'[•–—−]', '-', text)`. -/
def mapSepToHyphen (s : Str) : Str :=
  s.map fun c => if isBulletDash c then '-' else c

/-- `re.sub(r'[•\-–—−]', ' ', k)`. -/
def mapSepToSpace (s : Str) : Str :=
  s.map fun c => if isSepChar c then ' ' else c

/-- The automaton behind `re.sub(r'\s*C\s*', repl, text)` for a character
class `C` given by `p` (the code uses `C = [-]` and `C = [•\-–—−]` with
replacements `' - '` and `' • '`).  The state is `some pend` when `pend` is
the pending whitespace run that may yet become the `\s*` lead of a match,
and `none` right after a match while its trailing `\s*` is being consumed.
Matches are found left to right with greedy whitespace on both sides. -/
def subSpAux (p : Char → Bool) (repl : Str) : Option Str → Str → Str
  | some pend, [] => pend
  | none, [] => []
  | some pend, c :: rest =>
    if p c then repl ++ subSpAux p repl none rest
    else if isPyWs c then subSpAux p repl (some (pend ++ [c])) rest
    else pend ++ c :: subSpAux p repl (some []) rest
  | none, c :: rest =>
    if p c then repl ++ subSpAux p repl none rest
    else if isPyWs c then subSpAux p repl none rest
    else c :: subSpAux p repl (some []) rest

/-- `re.sub(r'\s*C\s*', repl, text)`. -/
def subSp (p : Char → Bool) (repl : Str) (s : Str) : Str :=
  subSpAux p repl (some []) s

/-- `TranslationReplacer._normalize_separators`. -/
def normalize_separators (s : Str) : Str :=
  pyStrip (collapseWs (subSp (· = '-') [' ', '-', ' '] (mapSepToHyphen s)))

/-! ### Python dictionaries as insertion-ordered association lists -/

/-- An insertion-ordered dictionary, as Python `dict`. -/
abbrev Dict := List (Str × Str)

/-- `d[k] = v`: overwrite in place if the key exists, else append. -/
def dinsert (d : Dict) (k v : Str) : Dict :=
  match d with
  | [] => [(k, v)]
  | (k0, v0) :: rest =>
    if k0 = k then (k0, v) :: rest else (k0, v0) :: dinsert rest k v

/-- `d.setdefault(k, v)` /  `if k not in d: d[k] = v`. -/
def dinsertIfAbsent (d : Dict) (k v : Str) : Dict :=
  match d with
  | [] => [(k, v)]
  | (k0, v0) :: rest =>
    if k0 = k then (k0, v0) :: rest else (k0, v0) :: dinsertIfAbsent rest k v

/-- `d.get(k)`. -/
def dget (d : Dict) (k : Str) : Option Str :=
  match d with
  | [] => none
  | (k0, v0) :: rest => if k0 = k then some v0 else dget rest k

/-- `k in d`. -/
def dmem (d : Dict) (k : Str) : Bool := (dget d k).isSome

/-! ### `load_translations` (translate_html_files.py) -/

/-- `load_translations`: rows are `(en cell, target-language cell)` pairs;
each is stripped, and a row makes an entry only when both are non-empty
and differ. -/
def load_translations (rows : List (Str × Str)) : Dict :=
  rows.foldl
    (fun tbl row =>
      let source := pyStrip row.1
      let target := pyStrip row.2
      if source ≠ [] ∧ target ≠ [] ∧ source ≠ target then
        dinsert tbl source target
      else tbl)
    []

/-! ### `load_labels` (rewrite_links.py) -/

/-- `load_labels`: rows are `(en cell, identifier cell)` pairs; keys are
lower-cased; on duplicate keys the last row wins (plain assignment). -/
def load_labels (rows : List (Str × Str)) : Dict :=
  rows.foldl
    (fun mapping row =>
      let en := pyStrip row.1
      let identifier := pyStrip row.2
      if en ≠ [] ∧ identifier ≠ [] then
        dinsert mapping (pyLower en) identifier
      else mapping)
    []

/-! ### `TranslationReplacer.__init__`: the case-insensitive variation table -/

/-- The five variations of a table key built in `__init__`. -/
def keyVariations (k : Str) : List Str :=
  [ k,
    normalize_separators k,
    mapSepToSpace k,
    subSp isSepChar [' ', '•', ' '] k,
    subSp isSepChar [' ', '-', ' '] k ]

/-- Normalisation applied to each variation before insertion:
`re.sub(r'\s+', ' ', variation).strip().lower()`. -/
def variationKey (s : Str) : Str := pyLower (pyStrip (collapseWs s))

/-- Insert the variations of one key, earlier insertions taking precedence. -/
def insertVariations (acc : Dict) (k v : Str) : Dict :=
  (keyVariations k).foldl (fun acc var => dinsertIfAbsent acc (variationKey var) v) acc

/-- `self.lookup_variations`, built by folding over the translation map in
insertion order. -/
def build_lookup_variations (translation_map : Dict) : Dict :=
  translation_map.foldl (fun acc kv => insertVariations acc kv.1 kv.2) []

/-! ### `TranslationReplacer._translate_text` -/

/-- The five case-insensitive attempts of `_translate_text` (before their
per-attempt whitespace normalisation). -/
def lookupAttempts (normalized : Str) : List Str :=
  [ pyLower normalized,
    pyLower (normalize_separators normalized),
    pyLower (subSp isSepChar [' ', '•', ' '] normalized),
    pyLower (subSp isSepChar [' ', '-', ' '] normalized),
    pyLower (mapSepToSpace normalized) ]

/-- Scan the attempts, whitespace-normalising each, until one hits the
variation table. -/
def firstAttemptHit (variations : Dict) : List Str → Option Str
  | [] => none
  | a :: rest =>
    match dget variations (pyStrip (collapseWs a)) with
    | some v => some v
    | none => firstAttemptHit variations rest

/-- `TranslationReplacer._translate_text`; `missing` is the
`missing_translations` set, modelled as a duplicate-free list.  Returns the
replacement text and the updated missing set. -/
def translate_text (translation_map variations : Dict) (missing : List Str)
    (text : Str) : Str × List Str :=
  let normalized := normalize_text text
  match dget translation_map normalized with
  | some v => (v, missing)
  | none =>
    let normalized_sep := normalize_separators normalized
    if normalized_sep ≠ normalized ∧ (dget translation_map normalized_sep).isSome then
      ((dget translation_map normalized_sep).getD [], missing)
    else
      match firstAttemptHit variations (lookupAttempts normalized) with
      | some v => (v, missing)
      | none => (text, if text ∈ missing then missing else missing ++ [text])

/-! ### `TranslationReplacer._translate_url` -/

/-- `s.startswith(p)`. -/
def begins (p s : Str) : Bool := s.take p.length = p

/-- Python `str.split(c)` (splitting on a single character). -/
def splitOnChar (c : Char) : Str → List Str
  | [] => [[]]
  | x :: rest =>
    if x = c then [] :: splitOnChar c rest
    else
      match splitOnChar c rest with
      | h :: t => (x :: h) :: t
      | [] => [[x]]

/-- Join with a single character, inverse of `splitOnChar`. -/
def joinChar (c : Char) (l : List Str) : Str := (l.intersperse [c]).flatten

/-- Python `s.rsplit('.', 1)` when `'.' ∈ s`: split at the last dot. -/
def rsplit1Dot (s : Str) : Str × Str :=
  let r := s.reverse
  (((r.dropWhile (· ≠ '.')).drop 1).reverse, (r.takeWhile (· ≠ '.')).reverse)

/-- One path component of `_translate_url`'s loop body. -/
def translateUrlPart (tm var : Dict) (miss : List Str) (part : Str) :
    Str × List Str :=
  if part = [] ∨ part = ['.'] ∨ part = ['.', '.'] then (part, miss)
  else if '.' ∈ part then
    let fe := rsplit1Dot part
    let t := translate_text tm var miss fe.1
    (if fe.2 ≠ [] then t.1 ++ '.' :: fe.2 else t.1, t.2)
  else translate_text tm var miss part

/-- `TranslationReplacer._translate_url`. -/
def translate_url (tm var : Dict) (miss : List Str) (url : Str) :
    Str × List Str :=
  if begins "http://".toList url ∨ begins "https://".toList url ∨
     begins "mailto:".toList url ∨ begins "tel:".toList url ∨
     begins "//".toList url ∨ begins ['#'] url ∨ url = [] ∨
     begins "javascript:".toList url then
    (url, miss)
  else
    let path_part := url.takeWhile (fun c => c ≠ '#' ∧ c ≠ '?')
    let anchor_part := url.dropWhile (fun c => c ≠ '#' ∧ c ≠ '?')
    if path_part = [] then (url, miss)
    else
      let step := fun (acc : List Str × List Str) (part : Str) =>
        let t := translateUrlPart tm var acc.2 part
        (acc.1 ++ [t.1], t.2)
      let r := (splitOnChar '/' path_part).foldl step ([], miss)
      (joinChar '/' r.1 ++ anchor_part, r.2)

/-! ### The Markup Walker (`TranslationReplacer` as an HTML-event machine) -/

def SKIP_TAGS : List Str := ["script".toList, "style".toList]

def TRANSLATABLE_ATTRS : List Str :=
  [ "alt".toList, "title".toList, "placeholder".toList, "aria-label".toList,
    "aria-describedby".toList, "aria-placeholder".toList,
    "data-location".toList, "data-city".toList ]

/-- One HTML-parser event; `raw` carries `get_starttag_text()`. -/
inductive Tok
  | startTag (tag : Str) (attrs : List (Str × Str)) (raw : Str)
  | endTag (tag : Str)
  | startEndTag (tag : Str) (attrs : List (Str × Str)) (raw : Str)
  | data (s : Str)
  | comment (s : Str)
  | decl (s : Str)
  | pi (s : Str)
deriving DecidableEq

/-- Parser state: emitted chunks, skip-nesting counter, missing set. -/
structure RState where
  output : List Str
  skip : Int
  missing : List Str
deriving DecidableEq

def initState : RState := ⟨[], 0, []⟩

/-- `dict(attrs).get('name')`: later duplicates win. -/
def lookupLast (attrs : List (Str × Str)) (k : Str) : Option Str :=
  attrs.foldl (fun acc kv => if kv.1 = k then some kv.2 else acc) none

/-- Attribute rewriting of `handle_starttag`. -/
def translateAttrs (tm var : Dict) (tag : Str) (attrs : List (Str × Str))
    (miss : List Str) : List (Str × Str) × List Str :=
  attrs.foldl
    (fun acc kv =>
      let (name, value) := kv
      if name ∈ TRANSLATABLE_ATTRS ∧ value ≠ [] then
        let t := translate_text tm var acc.2 value
        (acc.1 ++ [(name, t.1)], t.2)
      else if name = "href".toList ∧ tag = "a".toList then
        let t := translate_url tm var acc.2 value
        (acc.1 ++ [(name, t.1)], t.2)
      else if name = "content".toList ∧ tag = "meta".toList then
        if lookupLast attrs "name".toList = some "description".toList then
          let t := translate_text tm var acc.2 value
          (acc.1 ++ [(name, t.1)], t.2)
        else (acc.1 ++ [(name, value)], acc.2)
      else (acc.1 ++ [(name, value)], acc.2))
    ([], miss)

/-- Attribute rewriting of `handle_startendtag` (translatable attrs only). -/
def translateAttrsSelf (tm var : Dict) (attrs : List (Str × Str))
    (miss : List Str) : List (Str × Str) × List Str :=
  attrs.foldl
    (fun acc kv =>
      let (name, value) := kv
      if name ∈ TRANSLATABLE_ATTRS ∧ value ≠ [] then
        let t := translate_text tm var acc.2 value
        (acc.1 ++ [(name, t.1)], t.2)
      else (acc.1 ++ [(name, value)], acc.2))
    ([], miss)

/-- `' '.join(f'«name»="«value»"' ...)`. -/
def fmtAttrs (attrs : List (Str × Str)) : Str :=
  joinChar ' ' (attrs.map fun kv => kv.1 ++ '=' :: '"' :: kv.2 ++ ['"'])

/-- Reconstructed start tag. -/
def renderStart (tag : Str) (attrs : List (Str × Str)) : Str :=
  if attrs ≠ [] then '<' :: tag ++ ' ' :: fmtAttrs attrs ++ ['>']
  else '<' :: tag ++ ['>']

/-- Reconstructed self-closing tag. -/
def renderSelf (tag : Str) (attrs : List (Str × Str)) : Str :=
  if attrs ≠ [] then '<' :: tag ++ ' ' :: fmtAttrs attrs ++ [' ', '/', '>']
  else '<' :: tag ++ [' ', '/', '>']

/-- One parser event (`handle_starttag` … `handle_pi`). -/
def step (tm var : Dict) (st : RState) : Tok → RState
  | .startTag tag attrs raw =>
    if tag ∈ SKIP_TAGS then
      { st with skip := st.skip + 1, output := st.output ++ [raw] }
    else if st.skip > 0 then { st with output := st.output ++ [raw] }
    else
      let t := translateAttrs tm var tag attrs st.missing
      { st with output := st.output ++ [renderStart tag t.1], missing := t.2 }
  | .endTag tag =>
    let sk := if tag ∈ SKIP_TAGS then max 0 (st.skip - 1) else st.skip
    { st with skip := sk,
              output := st.output ++ ['<' :: '/' :: tag ++ ['>']] }
  | .startEndTag tag attrs raw =>
    if st.skip > 0 then { st with output := st.output ++ [raw] }
    else
      let t := translateAttrsSelf tm var attrs st.missing
      { st with output := st.output ++ [renderSelf tag t.1], missing := t.2 }
  | .data s =>
    if st.skip > 0 then { st with output := st.output ++ [s] }
    else
      let stripped := pyStrip s
      if stripped ≠ [] then
        let leading := s.takeWhile isPyWs
        let trailing := (s.reverse.takeWhile isPyWs).reverse
        let t := translate_text tm var st.missing stripped
        { st with output := st.output ++ [leading ++ t.1 ++ trailing],
                  missing := t.2 }
      else { st with output := st.output ++ [s] }
  | .comment s =>
    { st with output := st.output ++ ['<' :: '!' :: '-' :: '-' :: s ++ ['-', '-', '>']] }
  | .decl s => { st with output := st.output ++ ['<' :: '!' :: s ++ ['>']] }
  | .pi s => { st with output := st.output ++ ['<' :: '?' :: s ++ ['>']] }

/-- `feed`: run the machine over a token stream. -/
def run (tm var : Dict) (toks : List Tok) : RState :=
  toks.foldl (step tm var) initState

/-! ### The lookup procedure as the specification words it (§4.1) -/

/-- Modelled from the spec: the candidate list of §4.1 — (1) the exact text
as authored, (2) whitespace-normalized text, (3) separator-normalized text,
(4) case-folded exact text, (5) case-folded normalized text, (6) case-folded
separator-normalized text with separators rendered once as ` • ` and once as
` - `, in that order. -/
def specCandidates (text : Str) : List Str :=
  [ text,
    normalize_text text,
    normalize_separators text,
    pyLower text,
    pyLower (normalize_text text),
    pyLower (subSp isSepChar [' ', '•', ' '] text),
    pyLower (subSp isSepChar [' ', '-', ' '] text) ]

/-- Modelled from the spec: return the target of the first candidate
present in the table. -/
def specLookup (tbl : Dict) (text : Str) : Option Str :=
  (specCandidates text).foldl
    (fun acc c => match acc with
      | some v => some v
      | none => dget tbl c)
    none

/-! ### `rewrite_links.py` -/

/-- `should_skip_href`. -/
def should_skip_href (href : Str) : Bool :=
  let h := pyStrip href
  h = [] || begins "http://".toList h || begins "https://".toList h ||
  begins "mailto:".toList h || begins "tel:".toList h ||
  begins ['#'] h || begins ['/'] h

/-- `map_segment` (the `file_path` argument is only used for logging). -/
def map_segment (labels : Dict) (seg : Str) : Str :=
  if seg = [] ∨ seg = ['.'] ∨ seg = ['.', '.'] then seg
  else if '.' ∈ seg then
    let be := rsplit1Dot seg
    match dget labels (pyLower (pyStrip be.1)) with
    | some q => if q ≠ [] then q ++ '.' :: be.2 else seg
    | none => seg
  else
    match dget labels (pyLower (pyStrip seg)) with
    | some q => if q ≠ [] then q else seg
    | none => seg

/-- Python `str.partition(c)`: text before the first `c`, whether `c`
occurs, text after it. -/
def pyPartition (c : Char) (s : Str) : Str × Bool × Str :=
  (s.takeWhile (· ≠ c), decide (c ∈ s), (s.dropWhile (· ≠ c)).drop 1)

/-- `rewrite_href`: returns the rebuilt href and the `changed` flag. -/
def rewrite_href (labels : Dict) (href : Str) : Str × Bool :=
  let p1 := pyPartition '?' href
  let p2 := pyPartition '#' p1.1
  let new_path := joinChar '/' ((splitOnChar '/' p2.1).map (map_segment labels))
  let rebuilt :=
    new_path ++ (if p2.2.2 ≠ [] then '#' :: p2.2.2 else []) ++
    (if p1.2.1 then '?' :: p1.2.2 else [])
  (rebuilt, rebuilt ≠ href)

/-- The per-href behaviour of `process_file`: skipped hrefs stay as they
are, the rest are rewritten. -/
def processHref (labels : Dict) (href : Str) : Str :=
  if should_skip_href href then href else (rewrite_href labels href).1

/-! ### `rename_files.py` -/

/-- `QID_RE = ^Q[1-9][0-9]*$`. -/
def qidRe (s : Str) : Bool :=
  match s with
  | 'Q' :: d :: ds => ('1' ≤ d ∧ d ≤ '9') && ds.all (fun c => '0' ≤ c ∧ c ≤ '9')
  | _ => false

/-- `pathlib.PurePath.stem`: the file name without its suffix (a suffix
needs a dot that is neither the first nor the last character). -/
def stem (name : Str) : Str :=
  let ext := name.reverse.takeWhile (· ≠ '.')
  if ext.length = name.length then name
  else if ext = [] then name
  else if ext.length = name.length - 1 then name
  else name.take (name.length - ext.length - 1)

/-- A CSV row, keyed by column name. -/
abbrev Row := List (Str × Str)

/-- Lookup in an identifier- or label-keyed row table. -/
def rowGet (tbl : List (Str × Row)) (k : Str) : Option Row :=
  match tbl with
  | [] => none
  | (k0, r) :: rest => if k0 = k then some r else rowGet rest k

/-- Cell access `row.get(col, "")`. -/
def cell (r : Row) (col : Str) : Str :=
  match r with
  | [] => []
  | (c0, v) :: rest => if c0 = col then v else cell rest col

/-- `handle_non_wikidata_file` acting on a flat directory, modelled as the
list of file names present; returns the directory after the call. -/
def handle_non_wikidata_file (labels_id concepts_id : List (Str × Row))
    (lang : Str) (fs : List Str) (name : Str) : List Str :=
  if ¬ qidRe (stem name) then fs
  else
    match (rowGet labels_id (stem name)).orElse (fun _ => rowGet concepts_id (stem name)) with
    | none => fs
    | some row =>
      let label := pyStrip (cell row lang)
      if label = [] then fs
      else
        let newName := label ++ ".html".toList
        if newName = name then fs
        else if newName ∈ fs then fs
        else fs.erase name ++ [newName]

/-- The file loop of `main` in non-wikidata mode: the iteration list is
fixed up front; each handler call sees the live directory. -/
def runNonWikidataFiles (labels_id concepts_id : List (Str × Row))
    (lang : Str) (files : List Str) : List Str :=
  files.foldl (handle_non_wikidata_file labels_id concepts_id lang) files

/-- Observable filesystem actions of `handle_wikidata_file`. -/
inductive Ev
  | checkExists (name : Str)
  | rename (old new : Str)
  | addMissing (concept : Str)
deriving DecidableEq

/-- `handle_wikidata_file`: mutates the live directory and logs the
`new_path.exists()` probe and the `path.rename` call as events. -/
def handle_wikidata_file (labels_en concepts_en : List (Str × Row))
    (st : List Str × List Ev) (name : Str) : List Str × List Ev :=
  let concept := stem name
  let key := pyLower (pyStrip concept)
  match (rowGet labels_en key).orElse (fun _ => rowGet concepts_en key) with
  | none => (st.1, st.2 ++ [.addMissing concept])
  | some row =>
    let ident := pyStrip (cell row "identifier".toList)
    if ident = [] then st
    else
      let newName := ident ++ ".html".toList
      if newName = name then st
      else
        let tr := st.2 ++ [.checkExists newName]
        if newName ∈ st.1 then (st.1, tr)
        else (st.1.erase name ++ [newName], tr ++ [.rename name newName])

/-- The file loop of `main` in wikidata mode. -/
def runWikidataFiles (labels_en concepts_en : List (Str × Row))
    (files : List Str) : List Str × List Ev :=
  files.foldl (handle_wikidata_file labels_en concepts_en) (files, [])

def isRenameEv : Ev → Bool
  | .rename _ _ => true
  | _ => false

def isCheckEv : Ev → Bool
  | .checkExists _ => true
  | _ => false

/-- The two-phase discipline the specification describes: every
existence check happens before the first mutation. -/
def checksBeforeMutations (tr : List Ev) : Bool :=
  (tr.dropWhile (fun e => ¬ isRenameEv e)).all (fun e => ¬ isCheckEv e)

/-! ### Characterisation predicates used to verify the normalizers -/

/-- The first character, if any, is not whitespace. -/
def headNotWs : Str → Bool
  | [] => true
  | c :: _ => !isPyWs c

/-- The last character, if any, is not whitespace. -/
def lastNotWs (s : Str) : Bool := headNotWs s.reverse

/-- Every whitespace character is a plain space followed by non-whitespace
(the shape of `re.sub(r'\s+', ' ')` output). -/
def wsClean : Str → Bool
  | [] => true
  | c :: rest => (!isPyWs c || (c = ' ' && headNotWs rest)) && wsClean rest

/-- Neither whitespace nor a separator character. -/
def plainChar (c : Char) : Bool := !isPyWs c && !isSepChar c

def startsSpace : Str → Bool
  | [] => false
  | c :: _ => c = ' '

def startsDash : Str → Bool
  | [] => false
  | c :: _ => c = '-'

def endsDash : Str → Bool
  | [] => false
  | [c] => c = '-'
  | _ :: c :: rest => endsDash (c :: rest)

def padIf (b : Bool) : Str := if b then [' '] else []

/-- No bullet/dash characters other than the ASCII hyphen. -/
def noBullets (s : Str) : Bool := s.all fun c => !isBulletDash c

/-- The shape of `_normalize_separators` output, as a token scanner:
state 0 at a token boundary, state 1 right after a `-` token, state 2
inside a word.  Words are separated by single spaces, every hyphen is a
token of its own, and there is no leading or trailing space. -/
def sepOkAux : Nat → Str → Bool
  | _, [] => true
  | 0, c :: rest =>
    if c = '-' then sepOkAux 1 rest else plainChar c && sepOkAux 2 rest
  | 1, c :: rest => c = ' ' && !rest.isEmpty && sepOkAux 0 rest
  | _ + 2, c :: rest =>
    if c = ' ' then !rest.isEmpty && sepOkAux 0 rest
    else plainChar c && sepOkAux 2 rest

/-- Every hyphen is immediately surrounded by literal spaces; the flag
records whether the previous character was a space. -/
def dashOk : Bool → Str → Bool
  | _, [] => true
  | prevSp, c :: rest =>
    (if c = '-' then prevSp && startsSpace rest else true) && dashOk (c = ' ') rest

/-- As `dashOk` but a hyphen may also sit at either end of the string. -/
def dashLoose : Bool → Str → Bool
  | _, [] => true
  | prevSp, c :: rest =>
    (if c = '-' then prevSp && (rest.isEmpty || startsSpace rest) else true) &&
      dashLoose (c = ' ') rest

/-- The `dashOk`/`dashLoose` flag after scanning a chunk. -/
def flagAfter : Str → Bool → Bool
  | [], f => f
  | c :: rest, _ => flagAfter rest (c = ' ')

/-! ## Dictionary lemmas -/

theorem dget_dinsert_self (d : Dict) (k v : Str) :
    dget (dinsert d k v) k = some v := by
  induction d with
  | nil => simp [dinsert, dget]
  | cons hd tl ih =>
    by_cases h : hd.1 = k
    · simp [dinsert, dget, h]
    · simp [dinsert, dget, h, ih]

theorem dget_dinsertIfAbsent_of_mem (d : Dict) (k v key : Str)
    (h : dmem d key = true) :
    dget (dinsertIfAbsent d k v) key = dget d key := by
  induction d with
  | nil => simp [dmem, dget] at h
  | cons hd tl ih =>
    obtain ⟨k0, v0⟩ := hd
    by_cases hk : k0 = k
    · simp [dinsertIfAbsent, hk]
    · by_cases hkey : k0 = key
      · subst hkey
        simp [dinsertIfAbsent, dget, hk]
      · simp only [dmem, dget, hkey, if_false] at h
        simp [dinsertIfAbsent, dget, hk, hkey, ih h]

theorem dmem_dinsertIfAbsent_of_mem (d : Dict) (k v key : Str)
    (h : dmem d key = true) :
    dmem (dinsertIfAbsent d k v) key = true := by
  simpa [dmem, dget_dinsertIfAbsent_of_mem d k v key h] using h

theorem insertVariations_of_mem (k v key : Str) :
    ∀ (vars : List Str) (acc : Dict), dmem acc key = true →
      dget (vars.foldl (fun a var => dinsertIfAbsent a (variationKey var) v) acc) key
        = dget acc key
  | [], acc, h => rfl
  | var :: rest, acc, h => by
    have h' := dmem_dinsertIfAbsent_of_mem acc (variationKey var) v key h
    simp only [List.foldl_cons]
    rw [insertVariations_of_mem k v key rest _ h',
      dget_dinsertIfAbsent_of_mem acc (variationKey var) v key h]

theorem buildVariations_extend_of_mem (key : Str) :
    ∀ (m2 : List (Str × Str)) (acc : Dict), dmem acc key = true →
      dget (m2.foldl (fun a kv => insertVariations a kv.1 kv.2) acc) key
        = dget acc key
  | [], acc, h => rfl
  | e :: rest, acc, h => by
    have h1 : dget (insertVariations acc e.1 e.2) key = dget acc key :=
      insertVariations_of_mem e.1 e.2 key (keyVariations e.1) acc h
    have h2 : dmem (insertVariations acc e.1 e.2) key = true := by
      simpa [dmem, h1] using h
    simp only [List.foldl_cons]
    rw [buildVariations_extend_of_mem key rest _ h2, h1]

theorem mem_dinsert (d : Dict) (k v : Str) (a : Str × Str)
    (h : a ∈ dinsert d k v) : a ∈ d ∨ a = (k, v) := by
  induction d with
  | nil => simpa [dinsert] using h
  | cons hd tl ih =>
    obtain ⟨k0, v0⟩ := hd
    by_cases hk : k0 = k
    · simp only [dinsert, hk, if_true] at h
      rcases List.mem_cons.1 h with h1 | h1
      · right; exact h1
      · left; exact List.mem_cons_of_mem _ h1
    · simp only [dinsert, hk, if_false] at h
      rcases List.mem_cons.1 h with h1 | h1
      · left; simp [h1]
      · rcases ih h1 with h2 | h2
        · left; exact List.mem_cons_of_mem _ h2
        · right; exact h2

theorem dget_mem (d : Dict) (k v : Str) (h : dget d k = some v) : (k, v) ∈ d := by
  induction d with
  | nil => simp [dget] at h
  | cons hd tl ih =>
    obtain ⟨k0, v0⟩ := hd
    by_cases hk : k0 = k
    · simp only [dget, hk, if_true, Option.some.injEq] at h
      rw [hk, h]
      exact List.mem_cons_self _ _
    · simp only [dget, hk, if_false] at h
      exact List.mem_cons_of_mem _ (ih h)

/-! ## C1: the lookup priority order -/

/-- C1 is false as stated: with the table `{"A  B" ↦ "x", "A B" ↦ "y"}` and
input `"A  B"`, the first candidate of the claimed order (the exact text as
authored) is present with target `"x"`, but the code whitespace-normalizes
first and returns `"y"`. -/
theorem C1_counterexample :
    specLookup [("A  B".toList, "x".toList), ("A B".toList, "y".toList)]
        "A  B".toList = some "x".toList ∧
    (translate_text [("A  B".toList, "x".toList), ("A B".toList, "y".toList)]
        (build_lookup_variations
          [("A  B".toList, "x".toList), ("A B".toList, "y".toList)])
        [] "A  B".toList).1 = "y".toList ∧
    "x".toList ≠ "y".toList := by
  refine ⟨by decide, by decide, by decide⟩

/-- C1 amended: `_translate_text` first whitespace-normalizes the input and
then tries, in order: (1) the normalized text, case-sensitively, in the
translation map; (2) its separator-normalized form, case-sensitively, when
it differs; (3) the case-folded attempts against the variation index — the
normalized text, its separator-normalized form, its ` • ` rendering, its
` - ` rendering, and its separators-replaced-by-spaces rendering.  Earlier
stages always win; the raw text as authored is never tried. -/
theorem C1_lookup_priority (tm var : Dict) (miss : List Str) (text v : Str) :
    (dget tm (normalize_text text) = some v →
      translate_text tm var miss text = (v, miss)) ∧
    (dget tm (normalize_text text) = none →
      normalize_separators (normalize_text text) ≠ normalize_text text →
      dget tm (normalize_separators (normalize_text text)) = some v →
      translate_text tm var miss text = (v, miss)) ∧
    (dget tm (normalize_text text) = none →
      dget tm (normalize_separators (normalize_text text)) = none →
      firstAttemptHit var (lookupAttempts (normalize_text text)) = some v →
      translate_text tm var miss text = (v, miss)) := by
  refine ⟨fun h1 => ?_, fun h1 h2 h3 => ?_, fun h1 h2 h3 => ?_⟩
  · simp [translate_text, h1]
  · simp [translate_text, h1, h2, h3]
  · simp [translate_text, h1, h2, h3]

/-- Witness for `C1_lookup_priority` at concrete inputs. -/
theorem C1_lookup_priority_witness :
    translate_text [("a".toList, "b".toList)] [] [] "a".toList
      = ("b".toList, []) :=
  (C1_lookup_priority [("a".toList, "b".toList)] [] [] "a".toList
    "b".toList).1 (by decide)

/-! ## C2: duplicate-key policy of the tables -/

/-- C2 is false as stated: in `load_labels` the later of two rows with the
same key wins (`mapping[key] = identifier` overwrites), so the first-loaded
target `"Q1"` is replaced by `"Q2"`. -/
theorem C2_counterexample :
    dget (load_labels [("a".toList, "Q1".toList), ("a".toList, "Q2".toList)])
        "a".toList = some "Q2".toList ∧
    "Q2".toList ≠ "Q1".toList := by
  refine ⟨by decide, by decide⟩

/-- C2 amended: in the HTML translator's case-insensitive variation table a
key already present is never overwritten by later entries (first-loaded
wins), while `load_labels` lets the last row with a colliding key win;
neither collision is an error. -/
theorem C2_duplicate_policy (tm : Dict) (m2 : List (Str × Str))
    (key en id : Str) (rows : List (Str × Str)) :
    (dmem (build_lookup_variations tm) key = true →
      dget (build_lookup_variations (tm ++ m2)) key
        = dget (build_lookup_variations tm) key) ∧
    (pyStrip en ≠ [] → pyStrip id ≠ [] →
      dget (load_labels (rows ++ [(en, id)])) (pyLower (pyStrip en))
        = some (pyStrip id)) := by
  constructor
  · intro h
    have : build_lookup_variations (tm ++ m2)
        = m2.foldl (fun a kv => insertVariations a kv.1 kv.2)
            (build_lookup_variations tm) := by
      simp [build_lookup_variations, List.foldl_append]
    rw [this]
    exact buildVariations_extend_of_mem key m2 _ h
  · intro h1 h2
    have : load_labels (rows ++ [(en, id)])
        = dinsert (load_labels rows) (pyLower (pyStrip en)) (pyStrip id) := by
      simp [load_labels, List.foldl_append, h1, h2]
    rw [this]
    exact dget_dinsert_self _ _ _

/-- Witness for `C2_duplicate_policy` at concrete inputs. -/
theorem C2_duplicate_policy_witness :
    dget (build_lookup_variations
        ([("A".toList, "x".toList)] ++ [("a".toList, "y".toList)]))
      "a".toList = dget (build_lookup_variations [("A".toList, "x".toList)])
        "a".toList ∧
    dget (load_labels ([] ++ [("B".toList, "Q7".toList)])) "b".toList
      = some "Q7".toList := by
  constructor
  · exact (C2_duplicate_policy [("A".toList, "x".toList)]
      [("a".toList, "y".toList)] "a".toList [] [] []).1 (by decide)
  · have h := (C2_duplicate_policy [] [] [] "B".toList "Q7".toList []).2
      (by decide) (by decide)
    simpa using h

/-! ## C5: untranslated rows produce no entry -/

theorem load_translations_entries (rows : List (Str × Str)) :
    ∀ (acc : Dict), (∀ a ∈ acc, a.2 ≠ [] ∧ a.2 ≠ a.1) →
      ∀ a ∈ rows.foldl
        (fun tbl row =>
          let source := pyStrip row.1
          let target := pyStrip row.2
          if source ≠ [] ∧ target ≠ [] ∧ source ≠ target then
            dinsert tbl source target
          else tbl) acc,
        a.2 ≠ [] ∧ a.2 ≠ a.1 := by
  induction rows with
  | nil => intro acc hacc a ha; exact hacc a ha
  | cons row rest ih =>
    intro acc hacc a ha
    simp only [List.foldl_cons] at ha
    refine ih _ ?_ a ha
    intro b hb
    simp only at hb
    by_cases hc : pyStrip row.1 ≠ [] ∧ pyStrip row.2 ≠ [] ∧
        pyStrip row.1 ≠ pyStrip row.2
    · rw [if_pos hc] at hb
      rcases mem_dinsert acc (pyStrip row.1) (pyStrip row.2) b hb with h1 | h1
      · exact hacc b h1
      · rw [h1]
        exact ⟨hc.2.1, fun he => hc.2.2 he.symm⟩
    · rw [if_neg hc] at hb
      exact hacc b hb

/-- C5: a row whose target cell strips to empty or to the source text adds
no entry, and in the loaded table no value is empty or equal to its key. -/
theorem C5_untranslated_rows (rows : List (Str × Str)) (k v : Str)
    (row : Str × Str) :
    (dget (load_translations rows) k = some v → v ≠ [] ∧ v ≠ k) ∧
    (pyStrip row.2 = [] ∨ pyStrip row.2 = pyStrip row.1 →
      load_translations (rows ++ [row]) = load_translations rows) := by
  constructor
  · intro h
    have hm := dget_mem _ _ _ h
    have := load_translations_entries rows [] (by simp) (k, v) hm
    exact this
  · intro h
    have hcond : ¬ (pyStrip row.1 ≠ [] ∧ pyStrip row.2 ≠ [] ∧
        pyStrip row.1 ≠ pyStrip row.2) := by
      rcases h with h | h
      · intro hc; exact hc.2.1 h
      · intro hc; exact hc.2.2 h.symm
    simp [load_translations, List.foldl_append, hcond]

/-- Witness for `C5_untranslated_rows` at concrete inputs. -/
theorem C5_untranslated_rows_witness :
    ("b".toList ≠ ([] : Str) ∧ "b".toList ≠ "a".toList) ∧
    load_translations ([("a".toList, "b".toList)] ++ [("c".toList, "c".toList)])
      = load_translations [("a".toList, "b".toList)] := by
  constructor
  · exact (C5_untranslated_rows [("a".toList, "b".toList)] "a".toList "b".toList
      ("c".toList, "c".toList)).1 (by decide)
  · exact (C5_untranslated_rows [("a".toList, "b".toList)] "a".toList "b".toList
      ("c".toList, "c".toList)).2 (by decide)

/-! ## C7: non-identifier names are untouched -/

theorem nonQid_fold_fixed (lid cid : List (Str × Row)) (lang : Str) :
    ∀ (files : List Str) (fs : List Str),
      (∀ n ∈ files, qidRe (stem n) = false) →
      files.foldl (handle_non_wikidata_file lid cid lang) fs = fs := by
  intro files
  induction files with
  | nil => intro fs _; rfl
  | cons n rest ih =>
    intro fs h
    have hn : qidRe (stem n) = false := h n (List.mem_cons_self _ _)
    have hstep : handle_non_wikidata_file lid cid lang fs n = fs := by
      simp [handle_non_wikidata_file, hn]
    simp only [List.foldl_cons, hstep]
    exact ih fs (fun m hm => h m (List.mem_cons_of_mem _ hm))

/-- C7 is false in its second half: with `labels.csv` rows
`Q1 ↦ (fr: "Q2")` and `Q2 ↦ (fr: "x")`, the first identifier→label run
renames `Q1.html` to `Q2.html`, and a second run on that already-renamed
tree renames again (to `x.html`), because the applied label is itself
QID-shaped. -/
theorem C7_counterexample :
    runNonWikidataFiles
        [("Q1".toList, [("fr".toList, "Q2".toList)]),
         ("Q2".toList, [("fr".toList, "x".toList)])] [] "fr".toList
        ["Q1.html".toList] = ["Q2.html".toList] ∧
    runNonWikidataFiles
        [("Q1".toList, [("fr".toList, "Q2".toList)]),
         ("Q2".toList, [("fr".toList, "x".toList)])] [] "fr".toList
        ["Q2.html".toList] = ["x.html".toList] ∧
    ["x.html".toList] ≠ [("Q2.html".toList : Str)] := by
  refine ⟨by decide, by decide, by decide⟩

/-- C7 amended: a file whose stem is not of identifier form is left
completely untouched, and a whole run over files none of whose stems are of
identifier form performs no rename; hence a second identifier→label run is
a no-op provided none of the labels applied by the first run is itself
QID-shaped. -/
theorem C7_non_identifier_untouched (lid cid : List (Str × Row)) (lang : Str)
    (fs : List Str) (name : Str) (files : List Str) :
    (qidRe (stem name) = false →
      handle_non_wikidata_file lid cid lang fs name = fs) ∧
    ((∀ n ∈ files, qidRe (stem n) = false) →
      runNonWikidataFiles lid cid lang files = files) := by
  constructor
  · intro h
    simp [handle_non_wikidata_file, h]
  · intro h
    exact nonQid_fold_fixed lid cid lang files files h

/-- Witness for `C7_non_identifier_untouched` at concrete inputs. -/
theorem C7_non_identifier_untouched_witness :
    handle_non_wikidata_file [] [] "fr".toList ["Paris.html".toList]
        "Paris.html".toList = ["Paris.html".toList] ∧
    runNonWikidataFiles [] [] "fr".toList ["Paris.html".toList]
      = ["Paris.html".toList] := by
  constructor
  · exact (C7_non_identifier_untouched [] [] "fr".toList ["Paris.html".toList]
      "Paris.html".toList []).1 (by decide)
  · exact (C7_non_identifier_untouched [] [] "fr".toList []
      "Paris.html".toList ["Paris.html".toList]).2 (by decide)

/-! ## C3: no two-phase plan; renames interleave with collision checks -/

/-- C3 is false as stated: renaming `a.html ↦ Q1.html, b.html ↦ Q2.html`
produces the event trace check, rename, check, rename — the second
existence check runs after the first rename, so no complete plan with
collision checks precedes the first mutation. -/
theorem C3_counterexample :
    (runWikidataFiles
        [("a".toList, [("identifier".toList, "Q1".toList)]),
         ("b".toList, [("identifier".toList, "Q2".toList)])] []
        ["a.html".toList, "b.html".toList]).2
      = [.checkExists "Q1.html".toList,
         .rename "a.html".toList "Q1.html".toList,
         .checkExists "Q2.html".toList,
         .rename "b.html".toList "Q2.html".toList] ∧
    checksBeforeMutations
      (runWikidataFiles
        [("a".toList, [("identifier".toList, "Q1".toList)]),
         ("b".toList, [("identifier".toList, "Q2".toList)])] []
        ["a.html".toList, "b.html".toList]).2 = false := by
  refine ⟨by decide, by decide⟩

/-- C3 amended: the rename loop mutates as it iterates; each entry's
collision check probes the live filesystem at the moment that entry is
moved.  With two files resolving to the same identifier, the first is
renamed to the shared target and the second is skipped because its check
sees the target created by the first rename; the trace interleaves a
mutation before the second check. -/
theorem C3_live_collision_check
    (labels_en concepts_en : List (Str × Row)) (f1 f2 : Str)
    (row1 row2 : Row) (ident : Str)
    (h1 : rowGet labels_en (pyLower (pyStrip (stem f1))) = some row1)
    (h2 : rowGet labels_en (pyLower (pyStrip (stem f2))) = some row2)
    (hi1 : pyStrip (cell row1 "identifier".toList) = ident)
    (hi2 : pyStrip (cell row2 "identifier".toList) = ident)
    (hne : ident ≠ [])
    (hT1 : ident ++ ".html".toList ≠ f1)
    (hT2 : ident ++ ".html".toList ≠ f2) :
    runWikidataFiles labels_en concepts_en [f1, f2]
      = ([f2, ident ++ ".html".toList],
         [.checkExists (ident ++ ".html".toList),
          .rename f1 (ident ++ ".html".toList),
          .checkExists (ident ++ ".html".toList)]) ∧
    checksBeforeMutations
      (runWikidataFiles labels_en concepts_en [f1, f2]).2 = false := by
  have hrun : runWikidataFiles labels_en concepts_en [f1, f2]
      = ([f2, ident ++ ".html".toList],
         [.checkExists (ident ++ ".html".toList),
          .rename f1 (ident ++ ".html".toList),
          .checkExists (ident ++ ".html".toList)]) := by
    simp only [String.toList, String.data] at hi1 hi2 hT1 hT2
    simp only [runWikidataFiles, List.foldl_cons, List.foldl_nil,
      handle_wikidata_file, h1, h2, Option.some_orElse']
    simp [hi1, hi2, hne, hT1, hT2, Ne.symm hT1, Ne.symm hT2,
      List.erase_cons, List.mem_cons]
  refine ⟨hrun, ?_⟩
  rw [hrun]
  rfl

/-- Witness for `C3_live_collision_check` at concrete inputs. -/
theorem C3_live_collision_check_witness :
    runWikidataFiles
        [("a".toList, [("identifier".toList, "Q1".toList)]),
         ("b".toList, [("identifier".toList, "Q1".toList)])] []
        ["a.html".toList, "b.html".toList]
      = (["b.html".toList, "Q1.html".toList],
         [.checkExists "Q1.html".toList,
          .rename "a.html".toList "Q1.html".toList,
          .checkExists "Q1.html".toList]) ∧
    checksBeforeMutations
      (runWikidataFiles
        [("a".toList, [("identifier".toList, "Q1".toList)]),
         ("b".toList, [("identifier".toList, "Q1".toList)])] []
        ["a.html".toList, "b.html".toList]).2 = false := by
  have h := C3_live_collision_check
    [("a".toList, [("identifier".toList, "Q1".toList)]),
     ("b".toList, [("identifier".toList, "Q1".toList)])] []
    "a.html".toList "b.html".toList
    [("identifier".toList, "Q1".toList)] [("identifier".toList, "Q1".toList)]
    "Q1".toList (by decide) (by decide) (by decide) (by decide) (by decide)
    (by decide) (by decide)
  simpa using h

/-! ## C4: internal link rewriting -/

theorem dropWhile_ne_of_mem (c : Char) :
    ∀ s : Str, c ∈ s → s.dropWhile (· ≠ c) = c :: (s.dropWhile (· ≠ c)).drop 1 := by
  intro s hs
  induction s with
  | nil => cases hs
  | cons x rest ih =>
    by_cases hx : x = c
    · subst hx
      simp [List.dropWhile]
    · have hc : c ∈ rest := by
        rcases List.mem_cons.1 hs with h | h
        · exact absurd h.symm hx
        · exact h
      have hxne : (x ≠ c) = True := by simp [hx]
      simp only [List.dropWhile, hxne, decide_True, if_true]
      simpa using ih hc

theorem takeWhile_ne_of_not_mem (c : Char) :
    ∀ s : Str, c ∉ s → s.takeWhile (· ≠ c) = s := by
  intro s hs
  induction s with
  | nil => rfl
  | cons x rest ih =>
    rw [List.takeWhile_eq_self_iff]
    intro y hy
    simp only [decide_eq_true_eq]
    exact fun h => hs (h ▸ hy)

/-- Python `partition` reassembles to the original string. -/
theorem pyPartition_roundtrip (c : Char) (s : Str) :
    s = (pyPartition c s).1 ++
      (if (pyPartition c s).2.1 then c :: (pyPartition c s).2.2 else []) := by
  by_cases h : c ∈ s
  · simp only [pyPartition, h, decide_True, if_true]
    conv_lhs => rw [← List.takeWhile_append_dropWhile (p := (· ≠ c)) (l := s)]
    rw [← dropWhile_ne_of_mem c s h]
  · simp only [pyPartition, h, decide_False, Bool.false_eq_true, if_false,
      List.append_nil]
    exact (takeWhile_ne_of_not_mem c s h).symm

/-- C4 is false as stated: (1) `_translate_url` does not skip a single-`/`
absolute-rooted href and rewrites `/about.html`; (2) `rewrite_href` drops
the `#` of an empty fragment, so `a#` is not carried byte-for-byte. -/
theorem C4_counterexample :
    (translate_url [("about".toList, "X".toList)]
        (build_lookup_variations [("about".toList, "X".toList)]) []
        "/about.html".toList).1 = "/X.html".toList ∧
    "/X.html".toList ≠ "/about.html".toList ∧
    should_skip_href "a#".toList = false ∧
    (rewrite_href [] "a#".toList).1 = "a".toList ∧
    "a".toList ≠ "a#".toList := by
  refine ⟨by decide, by decide, by decide, by decide, by decide⟩

/-- C4 amended: hrefs whose stripped form is empty or starts with
`http://`, `https://`, `mailto:`, `tel:`, `#` or `/` are skipped unchanged
by the link rewriter; a processed href is rebuilt as the segment-mapped
path followed by the original fragment (when non-empty) and the original
query, which reassemble exactly the pieces the input decomposed into; the
HTML translator's URL rewriting likewise returns the mapped path followed
by the original query/fragment tail, under its own skip list (`http://`,
`https://`, `mailto:`, `tel:`, `//`, `#`, `javascript:`, empty — but not a
single `/`). -/
theorem C4_href_preservation (labels tm var : Dict) (miss : List Str)
    (href url : Str) :
    (should_skip_href href = true → processHref labels href = href) ∧
    (should_skip_href href = false →
      processHref labels href
        = joinChar '/'
            ((splitOnChar '/' (pyPartition '#' (pyPartition '?' href).1).1).map
              (map_segment labels))
          ++ (if (pyPartition '#' (pyPartition '?' href).1).2.2 ≠ [] then
                '#' :: (pyPartition '#' (pyPartition '?' href).1).2.2 else [])
          ++ (if (pyPartition '?' href).2.1 then
                '?' :: (pyPartition '?' href).2.2 else []) ∧
      href = (pyPartition '#' (pyPartition '?' href).1).1
          ++ (if (pyPartition '#' (pyPartition '?' href).1).2.1 then
                '#' :: (pyPartition '#' (pyPartition '?' href).1).2.2 else [])
          ++ (if (pyPartition '?' href).2.1 then
                '?' :: (pyPartition '?' href).2.2 else [])) ∧
    (¬ (begins "http://".toList url ∨ begins "https://".toList url ∨
        begins "mailto:".toList url ∨ begins "tel:".toList url ∨
        begins "//".toList url ∨ begins ['#'] url ∨ url = [] ∨
        begins "javascript:".toList url) →
      url.takeWhile (fun c => c ≠ '#' ∧ c ≠ '?') ≠ [] →
      (∃ newPath, (translate_url tm var miss url).1
          = newPath ++ url.dropWhile (fun c => c ≠ '#' ∧ c ≠ '?')) ∧
      url = url.takeWhile (fun c => c ≠ '#' ∧ c ≠ '?')
          ++ url.dropWhile (fun c => c ≠ '#' ∧ c ≠ '?')) := by
  refine ⟨fun h => ?_, fun h => ⟨?_, ?_⟩, fun h1 h2 => ⟨?_, ?_⟩⟩
  · simp [processHref, h]
  · simp [processHref, h, rewrite_href]
  · have e1 := pyPartition_roundtrip '?' href
    have e2 := pyPartition_roundtrip '#' (pyPartition '?' href).1
    conv_lhs => rw [e1, e2]
  · simp only [translate_url, h1, h2, if_false]
    exact ⟨_, rfl⟩
  · exact (List.takeWhile_append_dropWhile _ _).symm

/-- Witness for `C4_href_preservation` at concrete inputs. -/
theorem C4_href_preservation_witness :
    processHref [] "#top".toList = "#top".toList ∧
    processHref [("paris".toList, "Q90".toList)] "Paris.html#s?x=1".toList
      = "Q90.html#s?x=1".toList ∧
    (∃ newPath,
      (translate_url [] [] [] "Berlin.html?q=2".toList).1
        = newPath ++ "?q=2".toList) := by
  refine ⟨?_, ?_, ?_⟩
  · exact (C4_href_preservation [] [] [] [] "#top".toList []).1 (by decide)
  · have h := (C4_href_preservation [("paris".toList, "Q90".toList)] [] [] []
      "Paris.html#s?x=1".toList []).2.1 (by decide)
    rw [h.1]
    decide
  · exact (C4_href_preservation [] [] [] [] [] "Berlin.html?q=2".toList).2.2
      (by decide) (by decide) |>.1

/-! ## The missing set only grows -/

theorem translate_text_missing_cases (tm var : Dict) (miss : List Str)
    (text : Str) :
    (translate_text tm var miss text).2 = miss ∨
    (translate_text tm var miss text).2 = miss ++ [text] := by
  unfold translate_text
  cases h1 : dget tm (normalize_text text) with
  | some v => simp [h1]
  | none =>
    simp only [h1]
    split
    · simp
    · cases h2 : firstAttemptHit var (lookupAttempts (normalize_text text)) with
      | some v => simp [h2]
      | none =>
        simp only [h2]
        by_cases h3 : text ∈ miss
        · simp [h3]
        · simp [h3]

theorem translate_text_missing_mono (tm var : Dict) (miss : List Str)
    (text : Str) : miss <+: (translate_text tm var miss text).2 := by
  rcases translate_text_missing_cases tm var miss text with h | h
  · simp [h]
  · simp [h]

theorem translateUrlPart_missing_mono (tm var : Dict) (miss : List Str)
    (part : Str) : miss <+: (translateUrlPart tm var miss part).2 := by
  unfold translateUrlPart
  by_cases h1 : part = [] ∨ part = ['.'] ∨ part = ['.', '.']
  · simp [h1]
  · rw [if_neg h1]
    by_cases h2 : '.' ∈ part
    · rw [if_pos h2]
      exact translate_text_missing_mono _ _ _ _
    · rw [if_neg h2]
      exact translate_text_missing_mono _ _ _ _

theorem translate_url_fold_mono (tm var : Dict) :
    ∀ (parts : List Str) (acc : List Str × List Str),
      acc.2 <+: ((parts.foldl
        (fun (acc : List Str × List Str) part =>
          let t := translateUrlPart tm var acc.2 part
          (acc.1 ++ [t.1], t.2)) acc).2)
  | [], acc => List.prefix_refl _
  | part :: rest, acc => by
    rw [List.foldl_cons]
    exact List.IsPrefix.trans (translateUrlPart_missing_mono tm var acc.2 part)
      (translate_url_fold_mono tm var rest
        (acc.1 ++ [(translateUrlPart tm var acc.2 part).1],
         (translateUrlPart tm var acc.2 part).2))

theorem translate_url_missing_mono (tm var : Dict) (miss : List Str)
    (url : Str) : miss <+: (translate_url tm var miss url).2 := by
  by_cases h1 : begins "http://".toList url ∨ begins "https://".toList url ∨
      begins "mailto:".toList url ∨ begins "tel:".toList url ∨
      begins "//".toList url ∨ begins ['#'] url ∨ url = [] ∨
      begins "javascript:".toList url
  · simp only [translate_url, if_pos h1]
    exact List.prefix_refl _
  · by_cases h2 : url.takeWhile (fun c => c ≠ '#' ∧ c ≠ '?') = []
    · simp only [translate_url, h1, if_false, h2, if_true]
      exact List.prefix_refl _
    · simp only [translate_url, h1, h2, if_false]
      exact translate_url_fold_mono tm var
        (splitOnChar '/' (url.takeWhile (fun c => c ≠ '#' ∧ c ≠ '?')))
        ([], miss)

theorem translateAttrs_step_mono (tm var : Dict) (tag : Str)
    (attrs : List (Str × Str)) (acc : List (Str × Str) × List Str)
    (name value : Str) :
    acc.2 <+: ((if name ∈ TRANSLATABLE_ATTRS ∧ value ≠ [] then
        let t := translate_text tm var acc.2 value
        (acc.1 ++ [(name, t.1)], t.2)
      else if name = "href".toList ∧ tag = "a".toList then
        let t := translate_url tm var acc.2 value
        (acc.1 ++ [(name, t.1)], t.2)
      else if name = "content".toList ∧ tag = "meta".toList then
        if lookupLast attrs "name".toList = some "description".toList then
          let t := translate_text tm var acc.2 value
          (acc.1 ++ [(name, t.1)], t.2)
        else (acc.1 ++ [(name, value)], acc.2)
      else (acc.1 ++ [(name, value)], acc.2) :
        List (Str × Str) × List Str).2) := by
  by_cases h1 : name ∈ TRANSLATABLE_ATTRS ∧ value ≠ []
  · rw [if_pos h1]
    exact translate_text_missing_mono _ _ _ _
  · rw [if_neg h1]
    by_cases h2 : name = "href".toList ∧ tag = "a".toList
    · rw [if_pos h2]
      exact translate_url_missing_mono _ _ _ _
    · rw [if_neg h2]
      by_cases h3 : name = "content".toList ∧ tag = "meta".toList
      · rw [if_pos h3]
        by_cases h4 : lookupLast attrs "name".toList = some "description".toList
        · rw [if_pos h4]
          exact translate_text_missing_mono _ _ _ _
        · rw [if_neg h4]
      · rw [if_neg h3]

theorem translateAttrs_missing_mono (tm var : Dict) (tag : Str)
    (attrs : List (Str × Str)) :
    ∀ (l : List (Str × Str)) (acc : List (Str × Str) × List Str),
      acc.2 <+: ((l.foldl
        (fun acc kv =>
          let (name, value) := kv
          if name ∈ TRANSLATABLE_ATTRS ∧ value ≠ [] then
            let t := translate_text tm var acc.2 value
            (acc.1 ++ [(name, t.1)], t.2)
          else if name = "href".toList ∧ tag = "a".toList then
            let t := translate_url tm var acc.2 value
            (acc.1 ++ [(name, t.1)], t.2)
          else if name = "content".toList ∧ tag = "meta".toList then
            if lookupLast attrs "name".toList = some "description".toList then
              let t := translate_text tm var acc.2 value
              (acc.1 ++ [(name, t.1)], t.2)
            else (acc.1 ++ [(name, value)], acc.2)
          else (acc.1 ++ [(name, value)], acc.2)) acc).2)
  | [], acc => List.prefix_refl _
  | kv :: rest, acc => by
    rw [List.foldl_cons]
    obtain ⟨name, value⟩ := kv
    refine List.IsPrefix.trans (translateAttrs_step_mono tm var tag attrs acc name value) ?_
    exact translateAttrs_missing_mono tm var tag attrs rest _

theorem translateAttrsSelf_missing_mono (tm var : Dict) :
    ∀ (l : List (Str × Str)) (acc : List (Str × Str) × List Str),
      acc.2 <+: ((l.foldl
        (fun acc kv =>
          let (name, value) := kv
          if name ∈ TRANSLATABLE_ATTRS ∧ value ≠ [] then
            let t := translate_text tm var acc.2 value
            (acc.1 ++ [(name, t.1)], t.2)
          else (acc.1 ++ [(name, value)], acc.2)) acc).2)
  | [], acc => List.prefix_refl _
  | kv :: rest, acc => by
    rw [List.foldl_cons]
    obtain ⟨name, value⟩ := kv
    refine List.IsPrefix.trans ?_ (translateAttrsSelf_missing_mono tm var rest _)
    by_cases h1 : name ∈ TRANSLATABLE_ATTRS ∧ value ≠ []
    · simp only [if_pos h1]
      exact translate_text_missing_mono _ _ _ _
    · simp only [if_neg h1]
      exact List.prefix_refl _

theorem step_missing_mono (tm var : Dict) (st : RState) (tok : Tok) :
    st.missing <+: (step tm var st tok).missing := by
  cases tok with
  | startTag tag attrs raw =>
    simp only [step]
    by_cases h1 : tag ∈ SKIP_TAGS
    · simp only [if_pos h1]
      exact List.prefix_refl _
    · simp only [if_neg h1]
      by_cases h2 : st.skip > 0
      · simp only [if_pos h2]
        exact List.prefix_refl _
      · simp only [if_neg h2]
        exact translateAttrs_missing_mono tm var tag attrs attrs (([], st.missing))
  | endTag tag => exact List.prefix_refl _
  | startEndTag tag attrs raw =>
    simp only [step]
    by_cases h2 : st.skip > 0
    · simp only [if_pos h2]
      exact List.prefix_refl _
    · simp only [if_neg h2]
      exact translateAttrsSelf_missing_mono tm var attrs (([], st.missing))
  | data s =>
    simp only [step]
    by_cases h2 : st.skip > 0
    · simp only [if_pos h2]
      exact List.prefix_refl _
    · simp only [if_neg h2]
      by_cases h3 : pyStrip s ≠ []
      · simp only [if_pos h3]
        exact translate_text_missing_mono _ _ _ _
      · simp only [if_neg h3]
        exact List.prefix_refl _
  | comment s => exact List.prefix_refl _
  | decl s => exact List.prefix_refl _
  | pi s => exact List.prefix_refl _

/-! ## C8: a failed lookup returns the text and records it -/

/-- C8: when every candidate misses, `_translate_text` returns the input
text unchanged and adds it to the missing set, and no parser event ever
removes anything recorded there (the run's set only grows, so it is
reported intact by `get_missing_translations`). -/
theorem C8_miss_returns_text (tm var : Dict) (miss : List Str) (text : Str)
    (st : RState) (tok : Tok) :
    (dget tm (normalize_text text) = none →
      dget tm (normalize_separators (normalize_text text)) = none →
      firstAttemptHit var (lookupAttempts (normalize_text text)) = none →
      (translate_text tm var miss text).1 = text ∧
        text ∈ (translate_text tm var miss text).2) ∧
    st.missing <+: (step tm var st tok).missing := by
  constructor
  · intro h1 h2 h3
    have he : translate_text tm var miss text
        = (text, if text ∈ miss then miss else miss ++ [text]) := by
      simp [translate_text, h1, h2, h3]
    rw [he]
    refine ⟨rfl, ?_⟩
    split
    · assumption
    · simp
  · exact step_missing_mono tm var st tok

/-- Witness for `C8_miss_returns_text` at concrete inputs. -/
theorem C8_miss_returns_text_witness :
    ((translate_text [("a".toList, "b".toList)] [] [] "zz".toList).1
        = "zz".toList ∧
      "zz".toList ∈ (translate_text [("a".toList, "b".toList)] [] []
        "zz".toList).2) ∧
    initState.missing <+: (step [] [] initState (.data "x".toList)).missing :=
  ⟨((C8_miss_returns_text [("a".toList, "b".toList)] [] [] "zz".toList
      initState (.data "x".toList)).1 (by decide) (by decide) (by decide)),
   (C8_miss_returns_text [("a".toList, "b".toList)] [] [] "zz".toList
      initState (.data "x".toList)).2⟩

/-! ## C6: script/style content passes through verbatim -/

/-- C6: inside a skip region (counter positive) text data is appended to
the output byte-identically with no translation and no state change other
than the output, and the skip counter changes only at `script`/`style`
boundaries: it increments at such a start tag, decrements (clamped at 0) at
such an end tag, and no other token kind alters it. -/
theorem C6_skip_regions (tm var : Dict) (st : RState) (s tag : Str)
    (attrs : List (Str × Str)) (raw : Str) :
    (0 < st.skip →
      step tm var st (.data s) = { st with output := st.output ++ [s] }) ∧
    ((step tm var st (.startTag tag attrs raw)).skip
        = if tag ∈ SKIP_TAGS then st.skip + 1 else st.skip) ∧
    ((step tm var st (.endTag tag)).skip
        = if tag ∈ SKIP_TAGS then max 0 (st.skip - 1) else st.skip) ∧
    (step tm var st (.data s)).skip = st.skip ∧
    (step tm var st (.startEndTag tag attrs raw)).skip = st.skip ∧
    (step tm var st (.comment s)).skip = st.skip ∧
    (step tm var st (.decl s)).skip = st.skip ∧
    (step tm var st (.pi s)).skip = st.skip := by
  refine ⟨fun h => ?_, ?_, ?_, ?_, ?_, ?_, ?_, ?_⟩
  · simp [step, h]
  · by_cases htag : tag ∈ SKIP_TAGS
    · simp [step, htag]
    · by_cases hskip : st.skip > 0 <;> simp [step, htag, hskip]
  · by_cases htag : tag ∈ SKIP_TAGS <;> simp [step, htag]
  · by_cases hskip : st.skip > 0
    · simp [step, hskip]
    · by_cases hs : pyStrip s ≠ [] <;> simp [step, hskip, hs]
  · by_cases hskip : st.skip > 0 <;> simp [step, hskip]
  · simp [step]
  · simp [step]
  · simp [step]

/-- Witness for `C6_skip_regions` at concrete inputs. -/
theorem C6_skip_regions_witness :
    step [] [] ⟨[], 1, []⟩ (.data "Hello".toList)
      = { output := [] ++ ["Hello".toList], skip := 1, missing := [] } :=
  (C6_skip_regions [] [] ⟨[], 1, []⟩ "Hello".toList [] [] []).1 (by decide)

/-! ## C9: the skip counter never goes negative -/

theorem step_skip_nonneg (tm var : Dict) (st : RState) (tok : Tok)
    (h : 0 ≤ st.skip) : 0 ≤ (step tm var st tok).skip := by
  cases tok with
  | startTag tag attrs raw =>
    simp only [step]
    split
    · simpa using le_trans h (by omega)
    · split
      · exact h
      · exact h
  | endTag tag =>
    simp only [step]
    split <;> [exact le_max_left 0 _; exact h]
  | startEndTag tag attrs raw =>
    simp only [step]
    split
    · exact h
    · exact h
  | data s =>
    simp only [step]
    split
    · exact h
    · split
      · exact h
      · exact h
  | comment s => exact h
  | decl s => exact h
  | pi s => exact h

theorem fold_skip_nonneg (tm var : Dict) :
    ∀ (toks : List Tok) (st : RState), 0 ≤ st.skip →
      0 ≤ (toks.foldl (step tm var) st).skip
  | [], st, h => h
  | tok :: rest, st, h => by
    simp only [List.foldl_cons]
    exact fold_skip_nonneg tm var rest _ (step_skip_nonneg tm var st tok h)

/-- C9: across any token stream the skip counter stays non-negative; an
unmatched closing skip tag at level zero leaves it at zero, and data
arriving at level zero still goes through translation (with surrounding
whitespace preserved). -/
theorem C9_counter_clamped (tm var : Dict) (toks : List Tok) (st : RState)
    (tag s : Str) :
    0 ≤ (run tm var toks).skip ∧
    (st.skip = 0 → (step tm var st (.endTag tag)).skip = 0) ∧
    (st.skip = 0 → pyStrip s ≠ [] →
      (step tm var st (.data s)).output
        = st.output ++ [s.takeWhile isPyWs
            ++ (translate_text tm var st.missing (pyStrip s)).1
            ++ (s.reverse.takeWhile isPyWs).reverse]) := by
  refine ⟨fold_skip_nonneg tm var toks initState (by decide), fun h => ?_,
    fun h hs => ?_⟩
  · simp only [step]
    split
    · simp [h]
    · exact h
  · simp [step, h, hs]

/-- Witness for `C9_counter_clamped` at concrete inputs. -/
theorem C9_counter_clamped_witness :
    (step [] [] initState (.endTag "script".toList)).skip = 0 ∧
    (step [("Hello".toList, "Bonjour".toList)]
        (build_lookup_variations [("Hello".toList, "Bonjour".toList)])
        initState (.data " Hello ".toList)).output
      = initState.output ++ [" Hello ".toList.takeWhile isPyWs
          ++ (translate_text [("Hello".toList, "Bonjour".toList)]
                (build_lookup_variations [("Hello".toList, "Bonjour".toList)])
                initState.missing (pyStrip " Hello ".toList)).1
          ++ (" Hello ".toList.reverse.takeWhile isPyWs).reverse] :=
  ⟨(C9_counter_clamped [] [] [] initState "script".toList []).2.1 (by decide),
   (C9_counter_clamped [("Hello".toList, "Bonjour".toList)]
      (build_lookup_variations [("Hello".toList, "Bonjour".toList)]) []
      initState [] " Hello ".toList).2.2 (by decide) (by decide)⟩

/-! ## C10 part 1: the whitespace normalizer is idempotent -/

theorem headNotWs_dropWhile (l : Str) : headNotWs (l.dropWhile isPyWs) = true := by
  induction l with
  | nil => rfl
  | cons c rest ih =>
    by_cases h : isPyWs c
    · simpa [List.dropWhile, h] using ih
    · simp [List.dropWhile, h, headNotWs]

theorem wsClean_append_right (a b : Str) (h : wsClean (a ++ b) = true) :
    wsClean b = true := by
  induction a with
  | nil => exact h
  | cons c a' ih =>
    simp only [List.cons_append, wsClean, Bool.and_eq_true] at h
    exact ih h.2

theorem headNotWs_append_left (a b : Str) (ha : a ≠ []) :
    headNotWs (a ++ b) = headNotWs a := by
  cases a with
  | nil => exact absurd rfl ha
  | cons c a' => rfl

theorem wsClean_append_left (a b : Str) (h : wsClean (a ++ b) = true) :
    wsClean a = true := by
  induction a with
  | nil => rfl
  | cons c a' ih =>
    simp only [List.cons_append, wsClean, Bool.and_eq_true] at h
    have h2 := ih h.2
    simp only [wsClean, Bool.and_eq_true]
    refine ⟨?_, h2⟩
    have hor := h.1
    rw [Bool.or_eq_true] at hor
    rcases hor with h1 | h1
    · simp [h1]
    · simp only [Bool.and_eq_true] at h1
      cases a' with
      | nil => simp [h1.1, headNotWs]
      | cons d a'' =>
        simp only [List.append_eq, List.cons_append, headNotWs] at h1
        simp [headNotWs, h1.1, h1.2]

theorem wsClean_dropWhile (l : Str) (h : wsClean l = true) :
    wsClean (l.dropWhile isPyWs) = true := by
  have := List.takeWhile_append_dropWhile (p := isPyWs) (l := l)
  exact wsClean_append_right _ _ (by rw [this]; exact h)

theorem stripR_decomp (y : Str) :
    stripR y ++ (y.reverse.takeWhile isPyWs).reverse = y := by
  apply List.reverse_injective
  simp only [List.reverse_append, List.reverse_reverse, stripR]
  exact List.takeWhile_append_dropWhile _ _

theorem wsTail_all (y : Str) :
    ((y.reverse.takeWhile isPyWs).reverse).all isPyWs = true := by
  rw [List.all_reverse]
  exact List.all_eq_true.2 (fun c hc => List.mem_takeWhile_imp hc)

theorem wsClean_stripR (y : Str) (h : wsClean y = true) :
    wsClean (stripR y) = true :=
  wsClean_append_left _ _ (by rw [stripR_decomp y]; exact h)

theorem wsClean_pyStrip (y : Str) (h : wsClean y = true) :
    wsClean (pyStrip y) = true :=
  wsClean_stripR _ (wsClean_dropWhile _ h)

theorem collapseWs_wsClean (l : Str) :
    wsClean (collapseWsAux false l) = true ∧
    wsClean (collapseWsAux true l) = true ∧
    headNotWs (collapseWsAux true l) = true := by
  induction l with
  | nil => exact ⟨rfl, rfl, rfl⟩
  | cons c rest ih =>
    by_cases h : isPyWs c
    · refine ⟨?_, ?_, ?_⟩
      · simp [collapseWsAux, h, wsClean, ih.1, ih.2.1, ih.2.2]
      · simp [collapseWsAux, h, ih.2.1]
      · simp [collapseWsAux, h, ih.2.2]
    · refine ⟨?_, ?_, ?_⟩
      · simp [collapseWsAux, h, wsClean, ih.1]
      · simp [collapseWsAux, h, wsClean, ih.1]
      · simp [collapseWsAux, h, headNotWs]

theorem collapseWs_fix (l : Str) :
    (wsClean l = true → collapseWsAux false l = l) ∧
    (wsClean l = true → headNotWs l = true → collapseWsAux true l = l) := by
  induction l with
  | nil => exact ⟨fun _ => rfl, fun _ _ => rfl⟩
  | cons c rest ih =>
    constructor
    · intro h
      simp only [wsClean, Bool.and_eq_true] at h
      by_cases hc : isPyWs c
      · have hor := h.1
        rw [Bool.or_eq_true] at hor
        rcases hor with h1 | h1
        · simp [hc] at h1
        · simp only [Bool.and_eq_true] at h1
          have hspace : c = ' ' := by simpa using h1.1
          subst hspace
          have := ih.2 h.2 h1.2
          simp [collapseWsAux, this, isPyWs]
      · simp [collapseWsAux, hc, ih.1 h.2]
    · intro h hh
      simp only [wsClean, Bool.and_eq_true] at h
      have hc : isPyWs c = false := by
        simpa [headNotWs] using hh
      simp [collapseWsAux, hc, ih.1 h.2]

theorem dropWhile_of_headNotWs (l : Str) (h : headNotWs l = true) :
    l.dropWhile isPyWs = l := by
  cases l with
  | nil => rfl
  | cons c rest =>
    simp only [headNotWs, Bool.not_eq_true'] at h
    simp [List.dropWhile, h]

theorem stripR_of_lastNotWs (l : Str) (h : lastNotWs l = true) :
    stripR l = l := by
  simp only [stripR, dropWhile_of_headNotWs l.reverse h, List.reverse_reverse]

theorem headNotWs_stripR (y : Str) (h : headNotWs y = true) :
    headNotWs (stripR y) = true := by
  cases he : stripR y with
  | nil => rfl
  | cons c rest =>
    have hd := stripR_decomp y
    rw [he] at hd
    rw [← hd] at h
    rw [headNotWs_append_left _ _ (by simp)] at h
    exact h

theorem lastNotWs_stripR (y : Str) : lastNotWs (stripR y) = true := by
  simp only [lastNotWs, stripR, List.reverse_reverse]
  exact headNotWs_dropWhile _

theorem headNotWs_pyStrip (y : Str) : headNotWs (pyStrip y) = true :=
  headNotWs_stripR _ (headNotWs_dropWhile _)

theorem lastNotWs_pyStrip (y : Str) : lastNotWs (pyStrip y) = true :=
  lastNotWs_stripR _

theorem pyStrip_of_clean (y : Str) (h1 : headNotWs y = true)
    (h2 : lastNotWs y = true) : pyStrip y = y := by
  simp only [pyStrip, stripL, dropWhile_of_headNotWs y h1,
    stripR_of_lastNotWs y h2]

theorem normalize_text_idem (s : Str) :
    normalize_text (normalize_text s) = normalize_text s := by
  have h1 : wsClean (collapseWs s) = true := (collapseWs_wsClean s).1
  have h2 : wsClean (pyStrip (collapseWs s)) = true := wsClean_pyStrip _ h1
  show pyStrip (collapseWs (pyStrip (collapseWs s))) = pyStrip (collapseWs s)
  rw [show collapseWs (pyStrip (collapseWs s)) = pyStrip (collapseWs s) from
    (collapseWs_fix _).1 h2]
  exact pyStrip_of_clean _ (headNotWs_pyStrip _) (lastNotWs_pyStrip _)



/-! ## C10 part 2: infrastructure lemmas -/

theorem subSpAux_all (P : Char → Bool) (p : Char → Bool) (repl : Str)
    (hrepl : repl.all P = true) :
    ∀ (m : Str),
      (∀ pend : Str, pend.all P = true → m.all P = true →
        (subSpAux p repl (some pend) m).all P = true) ∧
      (m.all P = true → (subSpAux p repl none m).all P = true)
  | [] => ⟨fun pend hp _ => hp, fun _ => rfl⟩
  | c :: rest => by
    have ih := subSpAux_all P p repl hrepl rest
    constructor
    · intro pend hp hm
      rw [List.all_cons, Bool.and_eq_true] at hm
      simp only [subSpAux]
      by_cases h1 : p c
      · rw [if_pos h1, List.all_append, Bool.and_eq_true]
        exact ⟨hrepl, ih.2 hm.2⟩
      · rw [if_neg h1]
        by_cases h2 : isPyWs c
        · rw [if_pos h2]
          refine ih.1 _ ?_ hm.2
          rw [List.all_append, Bool.and_eq_true]
          exact ⟨hp, by simp [hm.1]⟩
        · rw [if_neg h2, List.all_append, Bool.and_eq_true]
          refine ⟨hp, ?_⟩
          rw [List.all_cons, Bool.and_eq_true]
          exact ⟨hm.1, ih.1 [] rfl hm.2⟩
    · intro hm
      rw [List.all_cons, Bool.and_eq_true] at hm
      simp only [subSpAux]
      by_cases h1 : p c
      · rw [if_pos h1, List.all_append, Bool.and_eq_true]
        exact ⟨hrepl, ih.2 hm.2⟩
      · rw [if_neg h1]
        by_cases h2 : isPyWs c
        · rw [if_pos h2]
          exact ih.2 hm.2
        · rw [if_neg h2, List.all_cons, Bool.and_eq_true]
          exact ⟨hm.1, ih.1 [] rfl hm.2⟩

theorem collapse_all (P : Char → Bool) (hsp : P ' ' = true) :
    ∀ (u : Str) (b : Bool), u.all P = true → (collapseWsAux b u).all P = true
  | [], _, _ => rfl
  | c :: rest, b, h => by
    rw [List.all_cons, Bool.and_eq_true] at h
    simp only [collapseWsAux]
    by_cases hc : isPyWs c
    · rw [if_pos hc]
      cases b with
      | true => exact collapse_all P hsp rest true h.2
      | false =>
        rw [if_neg (by simp), List.all_cons, Bool.and_eq_true]
        exact ⟨hsp, collapse_all P hsp rest true h.2⟩
    · rw [if_neg hc, List.all_cons, Bool.and_eq_true]
      exact ⟨h.1, collapse_all P hsp rest false h.2⟩

theorem all_dropWhile (P p : Char → Bool) (l : Str) (h : l.all P = true) :
    (l.dropWhile p).all P = true := by
  have hd := List.takeWhile_append_dropWhile (p := p) (l := l)
  rw [← hd, List.all_append, Bool.and_eq_true] at h
  exact h.2

theorem all_stripR (P : Char → Bool) (l : Str) (h : l.all P = true) :
    (stripR l).all P = true := by
  have hd := stripR_decomp l
  rw [← hd, List.all_append, Bool.and_eq_true] at h
  exact h.1

theorem all_pyStrip (P : Char → Bool) (l : Str) (h : l.all P = true) :
    (pyStrip l).all P = true :=
  all_stripR P _ (all_dropWhile P isPyWs l h)

theorem ws_not_dash (c : Char) (h : isPyWs c = true) : ¬ (c = '-') := by
  simp only [isPyWs, Bool.or_eq_true, decide_eq_true_eq] at h
  rcases h with (((((h | h) | h) | h) | h) | h) <;> subst h <;> simp

theorem dashOk_of_noDash (f : Bool) :
    ∀ (xs : Str), (∀ c ∈ xs, ¬ (c = '-')) → dashOk f xs = true
  | [], _ => rfl
  | c :: rest, h => by
    simp only [dashOk]
    rw [if_neg (h c (List.mem_cons_self _ _)), Bool.true_and]
    exact dashOk_of_noDash (c = ' ') rest
      (fun x hx => h x (List.mem_cons_of_mem _ hx))

theorem dashOk_append_noDash (ys : Str) :
    ∀ (xs : Str) (f : Bool), (∀ c ∈ xs, ¬ (c = '-')) →
      dashOk f (xs ++ ys) = dashOk (flagAfter xs f) ys
  | [], f, _ => rfl
  | c :: rest, f, h => by
    simp only [List.cons_append, dashOk, flagAfter]
    rw [if_neg (h c (List.mem_cons_self _ _)), Bool.true_and]
    exact dashOk_append_noDash ys rest (c = ' ')
      (fun x hx => h x (List.mem_cons_of_mem _ hx))

theorem repl_dashOk (f : Bool) (ys : Str) :
    dashOk f ([' ', '-', ' '] ++ ys) = dashOk true ys := by
  simp [dashOk, startsSpace]

theorem startsSpace_collapse (rest : Str) (h : startsSpace rest = true) :
    startsSpace (collapseWsAux false rest) = true := by
  cases rest with
  | nil => simp [startsSpace] at h
  | cons c r =>
    have hc : c = ' ' := by simpa [startsSpace] using h
    subst hc
    simp [collapseWsAux, isPyWs, startsSpace]

theorem subHy_dashOk :
    ∀ (m : Str),
      (∀ (pend : Str) (f : Bool), pend.all isPyWs = true →
        dashOk f (subSpAux (· = '-') [' ', '-', ' '] (some pend) m) = true) ∧
      (∀ f : Bool, dashOk f (subSpAux (· = '-') [' ', '-', ' '] none m) = true)
  | [] => by
    constructor
    · intro pend f hp
      exact dashOk_of_noDash f pend
        (fun c hc => ws_not_dash c (by
          rw [List.all_eq_true] at hp
          simpa using hp c hc))
    · intro f
      rfl
  | c :: rest => by
    have ih := subHy_dashOk rest
    constructor
    · intro pend f hp
      by_cases h1 : c = '-'
      · subst h1
        have he : subSpAux (· = '-') [' ', '-', ' '] (some pend) ('-' :: rest)
            = [' ', '-', ' '] ++ subSpAux (· = '-') [' ', '-', ' '] none rest := by
          simp [subSpAux]
        rw [he, repl_dashOk]
        exact ih.2 true
      · by_cases h2 : isPyWs c
        · have he : subSpAux (· = '-') [' ', '-', ' '] (some pend) (c :: rest)
              = subSpAux (· = '-') [' ', '-', ' '] (some (pend ++ [c])) rest := by
            simp [subSpAux, h1, h2]
          rw [he]
          refine ih.1 (pend ++ [c]) f ?_
          rw [List.all_append, Bool.and_eq_true]
          exact ⟨hp, by simp [h2]⟩
        · have he : subSpAux (· = '-') [' ', '-', ' '] (some pend) (c :: rest)
              = pend ++ c :: subSpAux (· = '-') [' ', '-', ' '] (some []) rest := by
            simp [subSpAux, h1, h2]
          rw [he, dashOk_append_noDash _ pend f
            (fun x hx => ws_not_dash x (by
              rw [List.all_eq_true] at hp
              simpa using hp x hx))]
          simp only [dashOk]
          rw [if_neg h1, Bool.true_and]
          exact ih.1 [] (c = ' ') rfl
    · intro f
      by_cases h1 : c = '-'
      · subst h1
        have he : subSpAux (· = '-') [' ', '-', ' '] none ('-' :: rest)
            = [' ', '-', ' '] ++ subSpAux (· = '-') [' ', '-', ' '] none rest := by
          simp [subSpAux]
        rw [he, repl_dashOk]
        exact ih.2 true
      · by_cases h2 : isPyWs c
        · have he : subSpAux (· = '-') [' ', '-', ' '] none (c :: rest)
              = subSpAux (· = '-') [' ', '-', ' '] none rest := by
            simp [subSpAux, h1, h2]
          rw [he]
          exact ih.2 f
        · have he : subSpAux (· = '-') [' ', '-', ' '] none (c :: rest)
              = c :: subSpAux (· = '-') [' ', '-', ' '] (some []) rest := by
            simp [subSpAux, h1, h2]
          rw [he]
          simp only [dashOk]
          rw [if_neg h1, Bool.true_and]
          exact ih.1 [] (c = ' ') rfl

theorem cw_dashOk :
    ∀ (u : Str) (f : Bool), dashOk f u = true →
      dashOk f (collapseWsAux false u) = true ∧
      dashOk true (collapseWsAux true u) = true
  | [], f, _ => ⟨rfl, rfl⟩
  | c :: rest, f, h => by
    simp only [dashOk, Bool.and_eq_true] at h
    by_cases h1 : c = '-'
    · subst h1
      have hcond := h.1
      rw [if_pos rfl, Bool.and_eq_true] at hcond
      have htail : dashOk false rest = true := by
        simpa using h.2
      have ihr := cw_dashOk rest false htail
      have hdash : isPyWs '-' = false := rfl
      constructor
      · simp [collapseWsAux, isPyWs, dashOk, hcond.1,
          startsSpace_collapse rest hcond.2, ihr.1]
      · simp [collapseWsAux, isPyWs, dashOk,
          startsSpace_collapse rest hcond.2, ihr.1]
    · by_cases h2 : isPyWs c
      · have ihr := cw_dashOk rest (c = ' ') h.2
        constructor
        · simp only [collapseWsAux, h2, if_true, if_false, dashOk]
          rw [if_neg (by simp), Bool.true_and]
          simpa using ihr.2
        · simp only [collapseWsAux, h2, if_true]
          exact ihr.2
      · have hc' : ¬ (c = ' ') := fun he => by
          rw [he] at h2
          exact h2 rfl
        have htail : dashOk false rest = true := by
          have := h.2
          rwa [show (decide (c = ' ')) = false by simpa using hc'] at this
        have ihr := cw_dashOk rest false htail
        constructor
        · simp only [collapseWsAux, h2, Bool.false_eq_true, if_false, dashOk]
          rw [if_neg h1, Bool.true_and,
            show (decide (c = ' ')) = false by simpa using hc']
          exact ihr.1
        · simp only [collapseWsAux, h2, Bool.false_eq_true, if_false, dashOk]
          rw [if_neg h1, Bool.true_and,
            show (decide (c = ' ')) = false by simpa using hc']
          exact ihr.1

theorem dashOk_to_loose :
    ∀ (v : Str) (f : Bool), dashOk f v = true → dashLoose f v = true
  | [], _, _ => rfl
  | c :: rest, f, h => by
    simp only [dashOk, Bool.and_eq_true] at h
    simp only [dashLoose, Bool.and_eq_true]
    refine ⟨?_, dashOk_to_loose rest (c = ' ') h.2⟩
    by_cases h1 : c = '-'
    · have := h.1
      rw [if_pos h1, Bool.and_eq_true] at this
      rw [if_pos h1, Bool.and_eq_true, Bool.or_eq_true]
      exact ⟨this.1, Or.inr this.2⟩
    · rw [if_neg h1]

theorem dashLoose_flag_true (y : Str) (f : Bool)
    (h : dashLoose f y = true) : dashLoose true y = true := by
  cases y with
  | nil => rfl
  | cons c rest =>
    simp only [dashLoose, Bool.and_eq_true] at h ⊢
    refine ⟨?_, h.2⟩
    by_cases h1 : c = '-'
    · have := h.1
      rw [if_pos h1, Bool.and_eq_true] at this
      rw [if_pos h1, Bool.and_eq_true]
      exact ⟨rfl, this.2⟩
    · rw [if_neg h1]

theorem dashLoose_dropPre (ys : Str) :
    ∀ (xs : Str) (f : Bool), (∀ c ∈ xs, ¬ (c = '-')) →
      dashLoose f (xs ++ ys) = true → dashLoose (flagAfter xs f) ys = true
  | [], f, _, h => h
  | c :: rest, f, hnd, h => by
    simp only [List.cons_append, dashLoose, Bool.and_eq_true] at h
    exact dashLoose_dropPre ys rest (c = ' ')
      (fun x hx => hnd x (List.mem_cons_of_mem _ hx)) h.2

theorem dashLoose_dropWsSuffix (b : Str) (hb : b.all isPyWs = true) :
    ∀ (a : Str) (f : Bool), dashLoose f (a ++ b) = true → dashLoose f a = true
  | [], _, _ => rfl
  | c :: a', f, h => by
    simp only [List.cons_append, dashLoose, Bool.and_eq_true] at h
    simp only [dashLoose, Bool.and_eq_true]
    refine ⟨?_, dashLoose_dropWsSuffix b hb a' (c = ' ') h.2⟩
    by_cases h1 : c = '-'
    · have hc := h.1
      rw [if_pos h1, Bool.and_eq_true, Bool.or_eq_true] at hc
      rw [if_pos h1, Bool.and_eq_true, Bool.or_eq_true]
      refine ⟨hc.1, ?_⟩
      cases a' with
      | nil => left; rfl
      | cons d a'' =>
        right
        rcases hc.2 with hx | hx
        · simp at hx
        · simpa [startsSpace] using hx
    · rw [if_neg h1]



theorem lastNotWs_cons (c : Char) (rest : Str) (h : rest ≠ []) :
    lastNotWs (c :: rest) = lastNotWs rest := by
  simp only [lastNotWs, List.reverse_cons]
  rw [headNotWs_append_left _ _ (by simpa using h)]

theorem wsClean_tail (c : Char) (rest : Str) (h : wsClean (c :: rest) = true) :
    wsClean rest = true := by
  simp only [wsClean, Bool.and_eq_true] at h
  exact h.2

theorem wsClean_headNotWs_of_space (rest : Str)
    (h : wsClean (' ' :: rest) = true) : headNotWs rest = true := by
  simp only [wsClean, Bool.and_eq_true, Bool.or_eq_true] at h
  rcases h.1 with h1 | h1
  · simp [isPyWs] at h1
  · exact h1.2

theorem wsClean_head_not_ws (c : Char) (rest : Str) (hsp : ¬ (c = ' '))
    (h : wsClean (c :: rest) = true) : isPyWs c = false := by
  simp only [wsClean, Bool.and_eq_true, Bool.or_eq_true] at h
  rcases h.1 with h1 | h1
  · simpa using h1
  · exact absurd (by simpa using h1.1) hsp

theorem not_sepChar (c : Char) (hb : isBulletDash c = false)
    (hd : ¬ (c = '-')) : isSepChar c = false := by
  simp only [isBulletDash, Bool.or_eq_false_iff, decide_eq_false_iff_not] at hb
  simp [isSepChar, hb.1.1.1, hb.1.1.2, hb.1.2, hb.2, hd]

theorem toSepOk :
    ∀ (t : Str),
      (wsClean t = true → noBullets t = true → headNotWs t = true →
        lastNotWs t = true → dashLoose true t = true → sepOkAux 0 t = true) ∧
      ((t = [] ∨ startsSpace t = true) → wsClean t = true →
        noBullets t = true → lastNotWs t = true → dashLoose true t = true →
        sepOkAux 1 t = true) ∧
      (wsClean t = true → noBullets t = true → lastNotWs t = true →
        dashLoose false t = true → sepOkAux 2 t = true)
  | [] => ⟨fun _ _ _ _ _ => rfl, fun _ _ _ _ _ => rfl, fun _ _ _ _ => rfl⟩
  | c :: rest => by
    have ih := toSepOk rest
    have hlast : lastNotWs (c :: rest) = true → lastNotWs rest = true := by
      intro hl
      cases hr : rest with
      | nil => rfl
      | cons d r =>
        rw [← hr]
        rwa [lastNotWs_cons c rest (by simp [hr])] at hl
    refine ⟨?_, ?_, ?_⟩
    · intro hws hnb hh hl hdl
      simp only [dashLoose, Bool.and_eq_true] at hdl
      by_cases h1 : c = '-'
      · subst h1
        show sepOkAux 1 rest = true
        have hcond : (rest.isEmpty || startsSpace rest) = true := by
          simpa using hdl.1
        rw [Bool.or_eq_true] at hcond
        refine ih.2.1 ?_ (wsClean_tail _ _ hws) ?_ (hlast hl) ?_
        · rcases hcond with h2 | h2
          · left; simpa using h2
          · right; exact h2
        · simp only [noBullets, List.all_cons, Bool.and_eq_true] at hnb
          exact hnb.2
        · exact dashLoose_flag_true rest _ hdl.2
      · have hwsc : isPyWs c = false := by simpa [headNotWs] using hh
        have hbull : isBulletDash c = false := by
          simp only [noBullets, List.all_cons, Bool.and_eq_true] at hnb
          simpa using hnb.1
        have hplain : plainChar c = true := by
          simp [plainChar, hwsc, not_sepChar c hbull h1]
        simp only [sepOkAux]
        rw [if_neg h1, hplain, Bool.true_and]
        refine ih.2.2 (wsClean_tail _ _ hws) ?_ (hlast hl) ?_
        · simp only [noBullets, List.all_cons, Bool.and_eq_true] at hnb
          exact hnb.2
        · have := hdl.2
          rwa [show (decide (c = ' ')) = false by
            simp only [decide_eq_false_iff_not]
            intro he
            rw [he] at hwsc
            simp [isPyWs] at hwsc] at this
    · intro hshape hws hnb hl hdl
      have hsp : c = ' ' := by
        rcases hshape with h | h
        · cases h
        · simpa [startsSpace] using h
      subst hsp
      have hrest : rest ≠ [] := by
        intro he
        subst he
        simp [lastNotWs, headNotWs, isPyWs] at hl
      show (decide (' ' = ' ') && (!rest.isEmpty && sepOkAux 0 rest)) = true
      rw [Bool.and_eq_true, Bool.and_eq_true]
      refine ⟨rfl, by simpa using hrest, ?_⟩
      simp only [dashLoose, Bool.and_eq_true] at hdl
      refine ih.1 (wsClean_tail _ _ hws) ?_ (wsClean_headNotWs_of_space _ hws)
        (hlast hl) ?_
      · simp only [noBullets, List.all_cons, Bool.and_eq_true] at hnb
        exact hnb.2
      · simpa using hdl.2
    · intro hws hnb hl hdl
      simp only [dashLoose, Bool.and_eq_true] at hdl
      by_cases hsp : c = ' '
      · subst hsp
        have hrest : rest ≠ [] := by
          intro he
          subst he
          simp [lastNotWs, headNotWs, isPyWs] at hl
        show (!rest.isEmpty && sepOkAux 0 rest) = true
        rw [Bool.and_eq_true]
        refine ⟨by simpa using hrest, ?_⟩
        refine ih.1 (wsClean_tail _ _ hws) ?_ (wsClean_headNotWs_of_space _ hws)
          (hlast hl) ?_
        · simp only [noBullets, List.all_cons, Bool.and_eq_true] at hnb
          exact hnb.2
        · simpa using hdl.2
      · by_cases h1 : c = '-'
        · subst h1
          have := hdl.1
          simp at this
        · have hwsc : isPyWs c = false := wsClean_head_not_ws c rest hsp hws
          have hbull : isBulletDash c = false := by
            simp only [noBullets, List.all_cons, Bool.and_eq_true] at hnb
            simpa using hnb.1
          have hplain : plainChar c = true := by
            simp [plainChar, hwsc, not_sepChar c hbull h1]
          simp only [sepOkAux]
          rw [if_neg hsp, hplain, Bool.true_and]
          refine ih.2.2 (wsClean_tail _ _ hws) ?_ (hlast hl) ?_
          · simp only [noBullets, List.all_cons, Bool.and_eq_true] at hnb
            exact hnb.2
          · have := hdl.2
            rwa [show (decide (c = ' ')) = false by
              simpa using hsp] at this

theorem mapSep_noBull : ∀ (l : Str), noBullets (mapSepToHyphen l) = true
  | [] => rfl
  | c :: rest => by
    have ih := mapSep_noBull rest
    simp only [noBullets, mapSepToHyphen] at ih ⊢
    simp only [List.map_cons, List.all_cons, Bool.and_eq_true]
    refine ⟨?_, ih⟩
    by_cases h : isBulletDash c
    · rw [if_pos h]
      rfl
    · rw [if_neg h]
      simpa using h

theorem sepOk_normSep (l : Str) :
    sepOkAux 0 (normalize_separators l) = true := by
  have hnbu : noBullets
      (subSpAux (· = '-') [' ', '-', ' '] (some []) (mapSepToHyphen l)) = true := by
    refine (subSpAux_all (fun c => !isBulletDash c) _ _ (by decide)
      (mapSepToHyphen l)).1 [] rfl ?_
    exact mapSep_noBull l
  have hdau : dashOk false
      (subSpAux (· = '-') [' ', '-', ' '] (some []) (mapSepToHyphen l)) = true :=
    (subHy_dashOk (mapSepToHyphen l)).1 [] false rfl
  set u := subSpAux (· = '-') [' ', '-', ' '] (some []) (mapSepToHyphen l) with hu
  have hwsv : wsClean (collapseWsAux false u) = true := (collapseWs_wsClean u).1
  have hdav : dashOk false (collapseWsAux false u) = true :=
    (cw_dashOk u false hdau).1
  have hnbv : noBullets (collapseWsAux false u) = true :=
    collapse_all _ (by decide) u false hnbu
  set v := collapseWsAux false u with hv
  have hdll : dashLoose true (stripL v) = true := by
    have h1 : dashLoose false v = true := dashOk_to_loose v false hdav
    have h2 := dashLoose_dropPre (stripL v) (v.takeWhile isPyWs) false
      (fun c hc => ws_not_dash c (List.mem_takeWhile_imp hc))
      (by
        show dashLoose false
          (List.takeWhile isPyWs v ++ List.dropWhile isPyWs v) = true
        rw [List.takeWhile_append_dropWhile]
        exact h1)
    exact dashLoose_flag_true _ _ h2
  have hdlt : dashLoose true (pyStrip v) = true := by
    show dashLoose true (stripR (stripL v)) = true
    refine dashLoose_dropWsSuffix _ (wsTail_all (stripL v)) _ true ?_
    rw [stripR_decomp (stripL v)]
    exact hdll
  exact (toSepOk (pyStrip v)).1 (wsClean_pyStrip v hwsv)
    (all_pyStrip _ v hnbv) (headNotWs_pyStrip v) (lastNotWs_pyStrip v) hdlt

theorem sepOk_noBull :
    ∀ (t : Str) (n : Nat), sepOkAux n t = true → noBullets t = true
  | [], _, _ => rfl
  | c :: rest, n, h => by
    simp only [noBullets, List.all_cons, Bool.and_eq_true]
    match n with
    | 0 =>
      by_cases h1 : c = '-'
      · subst h1
        refine ⟨rfl, ?_⟩
        exact sepOk_noBull rest 1 (by simpa [sepOkAux] using h)
      · simp only [sepOkAux] at h
        rw [if_neg h1, Bool.and_eq_true] at h
        have hplain := h.1
        simp only [plainChar, Bool.and_eq_true, Bool.not_eq_true'] at hplain
        refine ⟨?_, sepOk_noBull rest 2 h.2⟩
        have : isSepChar c = false := hplain.2
        simp only [isSepChar, Bool.or_eq_false_iff, decide_eq_false_iff_not] at this
        simp [isBulletDash, this.1.1.1.1, this.1.1.2, this.1.2, this.2]
    | 1 =>
      simp only [sepOkAux, Bool.and_eq_true] at h
      have hsp : c = ' ' := by simpa using h.1.1
      subst hsp
      exact ⟨rfl, sepOk_noBull rest 0 h.2⟩
    | m + 2 =>
      by_cases h1 : c = ' '
      · subst h1
        simp only [sepOkAux, if_true] at h
        rw [Bool.and_eq_true] at h
        exact ⟨rfl, sepOk_noBull rest 0 h.2⟩
      · simp only [sepOkAux] at h
        rw [if_neg h1, Bool.and_eq_true] at h
        have hplain := h.1
        simp only [plainChar, Bool.and_eq_true, Bool.not_eq_true'] at hplain
        refine ⟨?_, sepOk_noBull rest 2 h.2⟩
        have : isSepChar c = false := hplain.2
        simp only [isSepChar, Bool.or_eq_false_iff, decide_eq_false_iff_not] at this
        simp [isBulletDash, this.1.1.1.1, this.1.1.2, this.1.2, this.2]

theorem sepOk_head (t : Str) (h : sepOkAux 0 t = true) :
    headNotWs t = true := by
  cases t with
  | nil => rfl
  | cons c rest =>
    by_cases h1 : c = '-'
    · subst h1
      rfl
    · simp only [sepOkAux] at h
      rw [if_neg h1, Bool.and_eq_true] at h
      have hplain := h.1
      simp only [plainChar, Bool.and_eq_true, Bool.not_eq_true'] at hplain
      simp [headNotWs, hplain.1]

theorem sepOk_last :
    ∀ (t : Str) (n : Nat), sepOkAux n t = true → lastNotWs t = true
  | [], _, _ => rfl
  | c :: rest, n, h => by
    cases hr : rest with
    | nil =>
      subst hr
      match n with
      | 0 =>
        by_cases h1 : c = '-'
        · subst h1; rfl
        · simp only [sepOkAux] at h
          rw [if_neg h1, Bool.and_eq_true] at h
          have hplain := h.1
          simp only [plainChar, Bool.and_eq_true, Bool.not_eq_true'] at hplain
          simp [lastNotWs, headNotWs, hplain.1]
      | 1 =>
        simp [sepOkAux] at h
      | m + 2 =>
        by_cases h1 : c = ' '
        · subst h1
          simp only [sepOkAux, if_true] at h
          rw [Bool.and_eq_true] at h
          simp at h
        · simp only [sepOkAux] at h
          rw [if_neg h1, Bool.and_eq_true] at h
          have hplain := h.1
          simp only [plainChar, Bool.and_eq_true, Bool.not_eq_true'] at hplain
          simp [lastNotWs, headNotWs, hplain.1]
    | cons d r =>
      have hne : rest ≠ [] := by rw [hr]; simp
      rw [← hr, lastNotWs_cons c rest hne]
      match n with
      | 0 =>
        by_cases h1 : c = '-'
        · subst h1
          exact sepOk_last rest 1 (by simpa [sepOkAux] using h)
        · simp only [sepOkAux] at h
          rw [if_neg h1, Bool.and_eq_true] at h
          exact sepOk_last rest 2 h.2
      | 1 =>
        simp only [sepOkAux, Bool.and_eq_true] at h
        exact sepOk_last rest 0 h.2
      | m + 2 =>
        by_cases h1 : c = ' '
        · subst h1
          simp only [sepOkAux, if_true] at h
          rw [Bool.and_eq_true] at h
          exact sepOk_last rest 0 h.2
        · simp only [sepOkAux] at h
          rw [if_neg h1, Bool.and_eq_true] at h
          exact sepOk_last rest 2 h.2

end Q42761025
namespace Q42761025

theorem cw_space_false (Z : Str) :
    collapseWsAux false (' ' :: Z) = ' ' :: collapseWsAux true Z := by
  simp [collapseWsAux, isPyWs]

theorem cw_space_true (Z : Str) :
    collapseWsAux true (' ' :: Z) = collapseWsAux true Z := by
  simp [collapseWsAux, isPyWs]

theorem cw_nonws (c : Char) (h : isPyWs c = false) (b : Bool) (Z : Str) :
    collapseWsAux b (c :: Z) = c :: collapseWsAux false Z := by
  simp [collapseWsAux, h]

theorem sub_dash (pend rest : Str) :
    subSpAux (· = '-') [' ', '-', ' '] (some pend) ('-' :: rest)
      = [' ', '-', ' '] ++ subSpAux (· = '-') [' ', '-', ' '] none rest := by
  simp [subSpAux]

theorem sub_dash_none (rest : Str) :
    subSpAux (· = '-') [' ', '-', ' '] none ('-' :: rest)
      = [' ', '-', ' '] ++ subSpAux (· = '-') [' ', '-', ' '] none rest := by
  simp [subSpAux]

theorem sub_plain (c : Char) (h1 : ¬ (c = '-')) (h2 : isPyWs c = false)
    (pend rest : Str) :
    subSpAux (· = '-') [' ', '-', ' '] (some pend) (c :: rest)
      = pend ++ c :: subSpAux (· = '-') [' ', '-', ' '] (some []) rest := by
  simp [subSpAux, h1, h2]

theorem sub_plain_none (c : Char) (h1 : ¬ (c = '-')) (h2 : isPyWs c = false)
    (rest : Str) :
    subSpAux (· = '-') [' ', '-', ' '] none (c :: rest)
      = c :: subSpAux (· = '-') [' ', '-', ' '] (some []) rest := by
  simp [subSpAux, h1, h2]

theorem sub_ws (c : Char) (h1 : ¬ (c = '-')) (h2 : isPyWs c = true)
    (pend rest : Str) :
    subSpAux (· = '-') [' ', '-', ' '] (some pend) (c :: rest)
      = subSpAux (· = '-') [' ', '-', ' '] (some (pend ++ [c])) rest := by
  simp [subSpAux, h1, h2]

theorem sub_ws_none (c : Char) (h1 : ¬ (c = '-')) (h2 : isPyWs c = true)
    (rest : Str) :
    subSpAux (· = '-') [' ', '-', ' '] none (c :: rest)
      = subSpAux (· = '-') [' ', '-', ' '] none rest := by
  simp [subSpAux, h1, h2]

theorem endsDash_cons_of_ne_nil (c : Char) (rest : Str) (h : rest ≠ []) :
    endsDash (c :: rest) = endsDash rest := by
  cases rest with
  | nil => exact absurd rfl h
  | cons d r => rfl

theorem state1_shape (c : Char) (rest : Str)
    (h : sepOkAux 1 (c :: rest) = true) :
    c = ' ' ∧ rest ≠ [] ∧ sepOkAux 0 rest = true := by
  have h' : (decide (c = ' ') && !rest.isEmpty && sepOkAux 0 rest) = true := h
  rw [Bool.and_eq_true, Bool.and_eq_true] at h'
  refine ⟨by simpa using h'.1.1, by simpa using h'.1.2, h'.2⟩

theorem state0_plain (c : Char) (rest : Str) (h1 : ¬ (c = '-'))
    (h : sepOkAux 0 (c :: rest) = true) :
    plainChar c = true ∧ sepOkAux 2 rest = true := by
  simp only [sepOkAux] at h
  rw [if_neg h1, Bool.and_eq_true] at h
  exact h

theorem state2_space (rest : Str) (h : sepOkAux 2 (' ' :: rest) = true) :
    rest ≠ [] ∧ sepOkAux 0 rest = true := by
  have h' : (!rest.isEmpty && sepOkAux 0 rest) = true := by
    simpa [sepOkAux] using h
  rw [Bool.and_eq_true] at h'
  exact ⟨by simpa using h'.1, h'.2⟩

theorem state2_plain (c : Char) (rest : Str) (hsp : ¬ (c = ' '))
    (h : sepOkAux 2 (c :: rest) = true) :
    plainChar c = true ∧ sepOkAux 2 rest = true := by
  simp only [sepOkAux] at h
  rw [if_neg hsp, Bool.and_eq_true] at h
  exact h

theorem plain_not_ws (c : Char) (h : plainChar c = true) : isPyWs c = false := by
  simp only [plainChar, Bool.and_eq_true, Bool.not_eq_true'] at h
  exact h.1

theorem plain_not_dash (c : Char) (h : plainChar c = true) : ¬ (c = '-') := by
  simp only [plainChar, Bool.and_eq_true, Bool.not_eq_true'] at h
  intro he
  rw [he] at h
  simp [isSepChar] at h

theorem sepSim :
    ∀ (t : Str),
      (sepOkAux 0 t = true →
        collapseWsAux false (subSpAux (· = '-') [' ', '-', ' '] (some []) t)
          = padIf (startsDash t) ++ t ++ padIf (endsDash t)) ∧
      (sepOkAux 0 t = true →
        collapseWsAux false (subSpAux (· = '-') [' ', '-', ' '] (some [' ']) t)
          = ' ' :: (t ++ padIf (endsDash t))) ∧
      (sepOkAux 1 t = true →
        collapseWsAux true (subSpAux (· = '-') [' ', '-', ' '] none t)
          = t.drop 1 ++ padIf (endsDash t)) ∧
      (sepOkAux 2 t = true →
        collapseWsAux false (subSpAux (· = '-') [' ', '-', ' '] (some []) t)
          = t ++ padIf (endsDash t)) ∧
      (sepOkAux 0 t = true →
        collapseWsAux true (subSpAux (· = '-') [' ', '-', ' '] none t)
          = t ++ padIf (endsDash t))
  | [] => by
    refine ⟨fun _ => rfl, fun _ => rfl, fun _ => rfl, fun _ => rfl, fun _ => rfl⟩
  | c :: rest => by
    have ih := sepSim rest
    refine ⟨?_, ?_, ?_, ?_, ?_⟩
    -- E0: token start, pending empty, collapse state false
    · intro h
      by_cases h1 : c = '-'
      · subst h1
        have hrest : sepOkAux 1 rest = true := h
        rw [sub_dash, show ([' ', '-', ' '] ++
            subSpAux (· = '-') [' ', '-', ' '] none rest)
          = ' ' :: '-' :: ' ' :: subSpAux (· = '-') [' ', '-', ' '] none rest
          from rfl]
        rw [cw_space_false, cw_nonws '-' rfl, cw_space_false]
        rw [ih.2.2.1 hrest]
        cases hr : rest with
        | nil => rfl
        | cons x r2 =>
          have hx := state1_shape x r2 (hr ▸ hrest)
          rw [hx.1]
          simp only [List.drop_succ_cons, List.drop_zero, startsDash, padIf]
          rfl
      · have hp := state0_plain c rest h1 h
        rw [sub_plain c h1 (plain_not_ws c hp.1) [] rest, List.nil_append,
          cw_nonws c (plain_not_ws c hp.1), ih.2.2.2.1 hp.2]
        cases hr : rest with
        | nil =>
          simp [startsDash, padIf, endsDash, h1]
        | cons d r2 =>
          simp [startsDash, padIf, h1, endsDash_cons_of_ne_nil c (d :: r2) (by simp)]
    -- E0': token start, pending one space, collapse state false
    · intro h
      by_cases h1 : c = '-'
      · subst h1
        have hrest : sepOkAux 1 rest = true := h
        rw [sub_dash, show ([' ', '-', ' '] ++
            subSpAux (· = '-') [' ', '-', ' '] none rest)
          = ' ' :: '-' :: ' ' :: subSpAux (· = '-') [' ', '-', ' '] none rest
          from rfl]
        rw [cw_space_false, cw_nonws '-' rfl, cw_space_false]
        rw [ih.2.2.1 hrest]
        cases hr : rest with
        | nil => rfl
        | cons x r2 =>
          have hx := state1_shape x r2 (hr ▸ hrest)
          rw [hx.1]
          simp only [List.drop_succ_cons, List.drop_zero, padIf]
          rfl
      · have hp := state0_plain c rest h1 h
        rw [sub_plain c h1 (plain_not_ws c hp.1) [' '] rest]
        rw [show ([' '] ++ c :: subSpAux (· = '-') [' ', '-', ' '] (some []) rest)
          = ' ' :: c :: subSpAux (· = '-') [' ', '-', ' '] (some []) rest from rfl]
        rw [cw_space_false, cw_nonws c (plain_not_ws c hp.1), ih.2.2.2.1 hp.2]
        cases hr : rest with
        | nil =>
          simp [padIf, endsDash, h1]
        | cons d r2 =>
          simp [padIf, endsDash_cons_of_ne_nil c (d :: r2) (by simp)]
    -- E1: right after a dash token
    · intro h
      have hx := state1_shape c rest h
      rw [hx.1]
      rw [sub_ws_none ' ' (by simp) rfl rest]
      rw [ih.2.2.2.2 hx.2.2]
      simp [endsDash_cons_of_ne_nil ' ' rest hx.2.1]
    -- E2: inside a word
    · intro h
      by_cases hsp : c = ' '
      · subst hsp
        have hx := state2_space rest h
        rw [sub_ws ' ' (by simp) rfl [] rest]
        rw [show ([] ++ [' '] : Str) = [' '] from rfl]
        rw [ih.2.1 hx.2]
        simp [endsDash_cons_of_ne_nil ' ' rest hx.1]
      · have hp := state2_plain c rest hsp h
        rw [sub_plain c (plain_not_dash c hp.1) (plain_not_ws c hp.1) [] rest,
          List.nil_append, cw_nonws c (plain_not_ws c hp.1), ih.2.2.2.1 hp.2]
        cases hr : rest with
        | nil =>
          simp [padIf, endsDash, plain_not_dash c hp.1]
        | cons d r2 =>
          simp [padIf, endsDash_cons_of_ne_nil c (d :: r2) (by simp)]
    -- E3: token start while consuming a match's trailing whitespace
    · intro h
      by_cases h1 : c = '-'
      · subst h1
        have hrest : sepOkAux 1 rest = true := h
        rw [sub_dash_none, show ([' ', '-', ' '] ++
            subSpAux (· = '-') [' ', '-', ' '] none rest)
          = ' ' :: '-' :: ' ' :: subSpAux (· = '-') [' ', '-', ' '] none rest
          from rfl]
        rw [cw_space_true, cw_nonws '-' rfl, cw_space_false]
        rw [ih.2.2.1 hrest]
        cases hr : rest with
        | nil => rfl
        | cons x r2 =>
          have hx := state1_shape x r2 (hr ▸ hrest)
          rw [hx.1]
          simp only [List.drop_succ_cons, List.drop_zero, padIf]
          rfl
      · have hp := state0_plain c rest h1 h
        rw [sub_plain_none c h1 (plain_not_ws c hp.1) rest,
          cw_nonws c (plain_not_ws c hp.1), ih.2.2.2.1 hp.2]
        cases hr : rest with
        | nil =>
          simp [padIf, endsDash, h1]
        | cons d r2 =>
          simp [padIf, endsDash_cons_of_ne_nil c (d :: r2) (by simp)]

end Q42761025
namespace Q42761025

theorem mapSep_id_of_noBull :
    ∀ (t : Str), noBullets t = true → mapSepToHyphen t = t
  | [], _ => rfl
  | c :: rest, h => by
    simp only [noBullets, List.all_cons, Bool.and_eq_true] at h
    have hb : isBulletDash c = false := by simpa using h.1
    simp only [mapSepToHyphen, List.map_cons]
    rw [if_neg (by simp [hb])]
    have := mapSep_id_of_noBull rest (by simpa [noBullets] using h.2)
    simpa [mapSepToHyphen] using this

theorem stripL_pad (b : Bool) (x : Str) (hh : headNotWs x = true) :
    stripL (padIf b ++ x) = x := by
  cases b with
  | false =>
    simpa [padIf, stripL] using dropWhile_of_headNotWs x hh
  | true =>
    show stripL (' ' :: x) = x
    simp only [stripL, List.dropWhile]
    rw [show (isPyWs ' ') = true from rfl]
    simpa [stripL] using dropWhile_of_headNotWs x hh

theorem stripR_append_space (x : Str) : stripR (x ++ [' ']) = stripR x := by
  simp only [stripR, List.reverse_append, List.reverse_cons, List.reverse_nil,
    List.nil_append, List.cons_append, List.dropWhile]
  rw [show (isPyWs ' ') = true from rfl]

theorem stripR_pad (b : Bool) (x : Str) (hl : lastNotWs x = true) :
    stripR (x ++ padIf b) = x := by
  cases b with
  | false => simpa [padIf] using stripR_of_lastNotWs x hl
  | true =>
    show stripR (x ++ [' ']) = x
    rw [stripR_append_space]
    exact stripR_of_lastNotWs x hl

theorem normSep_fix (t : Str) (h : sepOkAux 0 t = true) :
    normalize_separators t = t := by
  have hmap : mapSepToHyphen t = t :=
    mapSep_id_of_noBull t (sepOk_noBull t 0 h)
  show pyStrip (collapseWsAux false
    (subSpAux (· = '-') [' ', '-', ' '] (some []) (mapSepToHyphen t))) = t
  rw [hmap, (sepSim t).1 h]
  cases t with
  | nil => rfl
  | cons c rest =>
    have hh := sepOk_head (c :: rest) h
    have hl := sepOk_last (c :: rest) 0 h
    rw [List.append_assoc]
    show stripR (stripL (padIf (startsDash (c :: rest)) ++
      ((c :: rest) ++ padIf (endsDash (c :: rest))))) = c :: rest
    rw [stripL_pad _ _ (by
      rw [headNotWs_append_left _ _ (by simp)]
      exact hh)]
    exact stripR_pad _ _ hl

/-- C10: both text normalizers are idempotent — `_normalize_text` and
`_normalize_separators` each return their input unchanged when applied a
second time, for every string. -/
theorem C10_normalizers_idempotent (s : Str) :
    normalize_text (normalize_text s) = normalize_text s ∧
    normalize_separators (normalize_separators s) = normalize_separators s :=
  ⟨normalize_text_idem s, normSep_fix _ (sepOk_normSep s)⟩

end Q42761025
